import Mathlib

/-
Verification development for the researcher identity-resolution and
cross-source deduplication pipeline (src/app/harvesters/researcher_enricher.py,
with the fuzzy name-search endpoint of src/app/api/researchers.py).

The development is a shallow embedding:
  * Python string primitives (`str.lower`, `str.strip`, `str.split`,
    truthiness of strings/optionals) are modelled over `List Char` / `String`
    for the ASCII range actually exercised by the pipeline and the theorems.
  * The fuzzywuzzy similarity functions used by the repository
    (`fuzz.token_sort_ratio` at researcher_enricher.py:185, and
    `fuzz.token_sort_ratio` together with a token-set alignment score
    at researchers.py:308-314) are modelled after fuzzywuzzy's published
    algorithm: `utils.full_process` (ascii filter, non-word chars to
    spaces, lower-case, strip), token sorting, and the difflib
    `SequenceMatcher` matching-block ratio rounded half-to-even
    (Python 3 `round`).  Floating point is avoided by computing the ratio as
    an exact rational and rounding half-to-even; all concrete inputs used in
    theorems are far from ties, where the exact and the floating-point
    computation agree.
  * The SQLAlchemy persistence calls are modelled per the spec's persistence
    interface: `query(...).first()` is first match in insertion order
    (`List.find?`), `db.add` is an append, the association table is a list of
    (publicationId, researcherId) pairs.
-/

namespace Enricher

/-! ## Python string primitives -/

/-- Python whitespace for `str.strip` / `str.split` (ASCII range). -/
def pyIsSpace (c : Char) : Bool :=
  c == ' ' || c == '\t' || c == '\n' || c == '\r' || c.toNat == 11 || c.toNat == 12

/-- Drop leading whitespace. -/
def stripL (l : List Char) : List Char := l.dropWhile pyIsSpace

/-- Python `str.strip()` on the character list: drop whitespace at both ends. -/
def stripData (l : List Char) : List Char := stripL ((stripL l.reverse).reverse)

/-- Python `str.strip()`. -/
def pyStrip (s : String) : String := ⟨stripData s.data⟩

/-- Python `str.lower()` (ASCII range, which is all the pipeline compares). -/
def pyLower (s : String) : String := ⟨s.data.map Char.toLower⟩

/-- Python `str.split()` with no separator: split on whitespace runs,
dropping empty chunks.  `acc` holds the current chunk reversed. -/
def splitWsGo (acc : List Char) : List Char → List (List Char)
  | [] => if acc.isEmpty then [] else [acc.reverse]
  | c :: rest =>
      if pyIsSpace c then
        if acc.isEmpty then splitWsGo [] rest else acc.reverse :: splitWsGo [] rest
      else splitWsGo (c :: acc) rest

def splitWs (l : List Char) : List (List Char) := splitWsGo [] l

/-- Python truthiness of an optional string: `None` and `""` are falsy. -/
def truthy : Option String → Bool
  | none => false
  | some s => !(s == "")

/-! ## fuzzywuzzy similarity

Modelled from the fuzzywuzzy library used at researcher_enricher.py:19
(`from fuzzywuzzy import fuzz`).  `fullProcessData` is `utils.full_process`
with `force_ascii=True` (the default used by `fuzz.token_sort_ratio`). -/

/-- Regex word character `[a-zA-Z0-9_]` as used by fuzzywuzzy's
`replace_non_letters_non_numbers_with_whitespace`. -/
def isWordChar (c : Char) : Bool :=
  (97 ≤ c.toNat && c.toNat ≤ 122) || (65 ≤ c.toNat && c.toNat ≤ 90) ||
  (48 ≤ c.toNat && c.toNat ≤ 57) || c == '_'

/-- fuzzywuzzy `utils.full_process`: keep ascii, replace non-word characters
by spaces, lower-case, strip. -/
def fullProcessData (l : List Char) : List Char :=
  stripData ((l.filter (fun c => c.toNat < 128)).map
    (fun c => if isWordChar c then c.toLower else ' '))

/-- Lexicographic (code-point) order on tokens, Python string `<=`. -/
def lexLe : List Char → List Char → Bool
  | [], _ => true
  | _ :: _, [] => false
  | a :: as, b :: bs =>
      if a.toNat < b.toNat then true
      else if b.toNat < a.toNat then false
      else lexLe as bs

/-- Stable insertion into an ascending list (Python `sorted`). -/
def insertTok (x : List Char) : List (List Char) → List (List Char)
  | [] => [x]
  | y :: ys => if lexLe y x then y :: insertTok x ys else x :: y :: ys

/-- Python `sorted` on tokens. -/
def sortToks : List (List Char) → List (List Char)
  | [] => []
  | x :: xs => insertTok x (sortToks xs)

/-- Python `" ".join(tokens)`. -/
def joinSpace : List (List Char) → List Char
  | [] => []
  | [t] => t
  | t :: ts => t ++ ' ' :: joinSpace ts

/-- fuzzywuzzy `_process_and_sort`: full-process, split, sort, join, strip. -/
def processAndSort (l : List Char) : List Char :=
  stripData (joinSpace (sortToks (splitWs (fullProcessData l))))

/-- Common-prefix length of two character lists, capped at `cap`. -/
def ccl : Nat → List Char → List Char → Nat
  | 0, _, _ => 0
  | _ + 1, [], _ => 0
  | _ + 1, _ :: _, [] => 0
  | cap + 1, x :: xs, y :: ys => if x == y then ccl cap xs ys + 1 else 0

/-- difflib `SequenceMatcher.find_longest_match` on the windows
`a[alo:ahi]`, `b[blo:bhi]` (no junk): the longest common contiguous block,
earliest in `a` and then earliest in `b` among maximal blocks.  Enumerates
start pairs in lexicographic order keeping the first strict maximum, which
realises exactly that tie-break. -/
def flm (a b : List Char) (alo ahi blo bhi : Nat) : Nat × Nat × Nat :=
  (List.range (ahi - alo)).foldl (fun st di =>
    (List.range (bhi - blo)).foldl (fun st dj =>
      let i := alo + di
      let j := blo + dj
      let k := ccl (min (ahi - i) (bhi - j)) (a.drop i) (b.drop j)
      if st.2.2 < k then (i, j, k) else st) st) (alo, blo, 0)

/-- difflib `get_matching_blocks` work loop: repeatedly take the longest
match in the current window and recurse into the two remaining windows.
`fuel` bounds the number of processed windows (always sufficient at
`2*(|a|+|b|)+3` since each found block is non-empty). -/
def blocksGo (a b : List Char) : Nat → List (Nat × Nat × Nat × Nat) → List (Nat × Nat × Nat)
  | 0, _ => []
  | _ + 1, [] => []
  | fuel + 1, (alo, ahi, blo, bhi) :: rest =>
      let p := flm a b alo ahi blo bhi
      if p.2.2 == 0 then blocksGo a b fuel rest
      else p :: blocksGo a b fuel ((alo, p.1, blo, p.2.1) :: (p.1 + p.2.2, ahi, p.2.1 + p.2.2, bhi) :: rest)

/-- difflib matching blocks of two strings (without the zero sentinel). -/
def matchingBlocks (a b : List Char) : List (Nat × Nat × Nat) :=
  blocksGo a b (2 * (a.length + b.length) + 3) [(0, a.length, 0, b.length)]

/-- Total number of matched characters `M`. -/
def blocksTotal (bs : List (Nat × Nat × Nat)) : Nat :=
  (bs.map (fun t => t.2.2)).sum

/-- Python 3 `round` of the fraction `n / d` (round half to even),
fuzzywuzzy `utils.intr`. -/
def roundHalfEven (n d : Nat) : Nat :=
  let q := n / d
  let r := n % d
  if 2 * r < d then q else if d < 2 * r then q + 1 else if q % 2 == 0 then q else q + 1

/-- Model of `fuzz.ratio` on processed character lists: `round(100 * 2M / T)`,
with the difflib convention that two empty strings score 100. -/
def ratioData (a b : List Char) : Nat :=
  let t := a.length + b.length
  if t == 0 then 100 else roundHalfEven (200 * blocksTotal (matchingBlocks a b)) t

/-- Model of `fuzz.token_sort_ratio` (force_ascii, full_process): the token-order-
insensitive ratio. -/
def tokenSortScore (s1 s2 : String) : Nat :=
  ratioData (processAndSort s1.data) (processAndSort s2.data)

/-- One alignment candidate of `fuzz.partial_ratio`: slide the shorter
string against the block-aligned window of the longer one.  The
`995 * t < 2000 * m` branch is difflib's `ratio() > .995` early 100. -/
def alignCand (shorter longer : List Char) (bij : Nat × Nat × Nat) : Nat :=
  let ls := shorter.length
  let lstart := bij.2.1 - bij.1
  let sub := (longer.drop lstart).take ls
  let t := ls + sub.length
  let m := blocksTotal (matchingBlocks shorter sub)
  if t == 0 then 100 else if 995 * t < 2000 * m then 100 else roundHalfEven (200 * m) t

/-- Model of `fuzz.partial_ratio` of two processed strings: best alignment score over
the matching blocks (with the trailing zero-length sentinel block). -/
def bestAlignData (s1 s2 : List Char) : Nat :=
  let sh := if s1.length ≤ s2.length then s1 else s2
  let lg := if s1.length ≤ s2.length then s2 else s1
  let bs := matchingBlocks sh lg ++ [(sh.length, lg.length, 0)]
  (bs.map (alignCand sh lg)).foldl max 0

/-- Keep-first deduplication of tokens (Python `set`, then sorted). -/
def addTok (acc : List (List Char)) (t : List Char) : List (List Char) :=
  if acc.contains t then acc else acc ++ [t]

def uniqToks (ts : List (List Char)) : List (List Char) := ts.foldl addTok []

/-- Model of `fuzz.partial_token_set_ratio`: token-set construction and best-alignment
scoring of the three combined strings, per fuzzywuzzy `_token_set` with
`partial=True`. -/
def tokenSetAlignScore (s1 s2 : String) : Nat :=
  let p1 := fullProcessData s1.data
  let p2 := fullProcessData s2.data
  if p1.isEmpty then 0 else if p2.isEmpty then 0 else
  let t1 := uniqToks (splitWs p1)
  let t2 := uniqToks (splitWs p2)
  let sect := t1.filter (fun t => t2.contains t)
  let d12 := t1.filter (fun t => !(t2.contains t))
  let d21 := t2.filter (fun t => !(t1.contains t))
  let ss := stripData (joinSpace (sortToks sect))
  let c12 := stripData (ss ++ ' ' :: joinSpace (sortToks d12))
  let c21 := stripData (ss ++ ' ' :: joinSpace (sortToks d21))
  max (bestAlignData ss c12) (max (bestAlignData ss c21) (bestAlignData c12 c21))

/-- The score the disambiguation pipeline computes between two author names
(researcher_enricher.py:166,184-185): both names are lower-cased and
stripped, then `fuzz.token_sort_ratio` is applied — and nothing else. -/
def dedupScore (a b : String) : Nat :=
  tokenSortScore (pyStrip (pyLower a)) (pyStrip (pyLower b))

/-- The score the researcher name-search endpoint computes
(researchers.py:308-314): the maximum of the token-sort ratio and the
partial token-set ratio of the lower-cased strings. -/
def searchScore (q name : String) : Nat :=
  max (tokenSortScore (pyLower q) (pyLower name))
      (tokenSetAlignScore (pyLower q) (pyLower name))

/-! ## Data model

`AuthorEntry` is one element of a publication's JSON `authors` list
(non-dict elements, which the code skips, are not representable).
`Mention` is the ephemeral author record built by the extractor
(researcher_enricher.py:87-92); it carries the stripped name, the raw
`orcid` and `affiliation` values, the source publication id and the
publication's organization context.  `Cluster` is one entry of the
`deduplicated` list of `_deduplicate_authors`: the author dict of the
cluster's first mention, whose `affiliation` may be filled in by merges;
`members` is ghost instrumentation recording which mentions merged into the
entry (the code does not store it; every other field evolves exactly as the
code's dict does). -/

structure AuthorEntry where
  name : String
  orcid : Option String
  affiliation : Option String
deriving DecidableEq

structure Pub where
  id : String
  organization_id : Option String
  authors : Option (List AuthorEntry)
deriving DecidableEq

structure Mention where
  name : String
  orcid : Option String
  affiliation : Option String
  publication_id : String
  org : Option String
deriving DecidableEq

structure Cluster where
  name : String
  orcid : Option String
  affiliation : Option String
  publication_id : String
  org : Option String
  members : List Mention
deriving DecidableEq

/-! ## Disambiguation engine (researcher_enricher.py:143-197) -/

/-- Start a new cluster from a mention (the `deduplicated.append(author)`
branches at lines 173 and 195). -/
def newCluster (m : Mention) : Cluster :=
  ⟨m.name, m.orcid, m.affiliation, m.publication_id, m.org, [m]⟩

/-- Merge a mention into an existing cluster.  Only the affiliation can
change, and only when the mention's affiliation is truthy and the cluster's
is falsy (`if author["affiliation"] and not ...["affiliation"]`, lines
176-177 and 189-190). -/
def mergeInto (m : Mention) (c : Cluster) : Cluster :=
  ⟨c.name, c.orcid,
   if truthy m.affiliation && !truthy c.affiliation then m.affiliation else c.affiliation,
   c.publication_id, c.org, c.members ++ [m]⟩

/-- ORCID-keyed merge (lines 170-178): find the unique cluster holding this
orcid (the `seen` dict) and merge; `none` means the orcid is new. -/
def mergeByOrcid (m : Mention) : List Cluster → Option (List Cluster)
  | [] => none
  | c :: rest =>
      if c.orcid == m.orcid then some (mergeInto m c :: rest)
      else (mergeByOrcid m rest).map (fun rest' => c :: rest')

/-- Fuzzy-match eligibility of a cluster for an identifier-less mention
(lines 182-187): the cluster must itself lack a truthy orcid and the
token-sort score of the lower-cased stripped names must reach the
threshold. -/
def nameMatches (thr : Nat) (m : Mention) (c : Cluster) : Bool :=
  !truthy c.orcid && thr ≤ dedupScore m.name c.name

/-- First-match fuzzy merge (lines 180-192): merge into the first eligible
cluster in creation order; `none` means no cluster reached the threshold. -/
def mergeByName (thr : Nat) (m : Mention) : List Cluster → Option (List Cluster)
  | [] => none
  | c :: rest =>
      if nameMatches thr m c then some (mergeInto m c :: rest)
      else (mergeByName thr m rest).map (fun rest' => c :: rest')

/-- One iteration of the author loop of `_deduplicate_authors`
(lines 165-195). -/
def dedupStep (thr : Nat) (cs : List Cluster) (m : Mention) : List Cluster :=
  if truthy m.orcid then
    match mergeByOrcid m cs with
    | some cs' => cs'
    | none => cs ++ [newCluster m]
  else
    match mergeByName thr m cs with
    | some cs' => cs'
    | none => cs ++ [newCluster m]

/-- Model of `_deduplicate_authors` (researcher_enricher.py:143-197). -/
def dedup (thr : Nat) (ms : List Mention) : List Cluster :=
  ms.foldl (dedupStep thr) []

/-! ## Author record extractor (researcher_enricher.py:70-99) -/

/-- Mentions contributed by one publication: entries whose stripped name is
non-empty, in list order (lines 80-93). -/
def extractPub (p : Pub) : List Mention :=
  match p.authors with
  | none => []
  | some l =>
      l.filterMap (fun e =>
        let nm := pyStrip e.name
        if nm == "" then none
        else some ⟨nm, e.orcid, e.affiliation, p.id, p.organization_id⟩)

def allMentions (pubs : List Pub) : List Mention :=
  pubs.flatMap extractPub

/-- The `authors_by_org` accumulation (a `defaultdict(list)` filled in scan
order; Python dicts preserve key-insertion order). -/
def addToGroups (gs : List (Option String × List Mention)) (m : Mention) :
    List (Option String × List Mention) :=
  match gs with
  | [] => [(m.org, [m])]
  | (o, ms) :: rest =>
      if o == m.org then (o, ms ++ [m]) :: rest else (o, ms) :: addToGroups rest m

def groupsOf (pubs : List Pub) : List (Option String × List Mention) :=
  (allMentions pubs).foldl addToGroups []

/-! ## Persistence model and profile upsert (researcher_enricher.py:199-256)

Researchers keep the four fields the pipeline reads or writes; timestamps
and the publication counter are not read by any modelled operation.
`query(...).first()` is modelled as first match in insertion order and
`db.add` as an append. -/

structure Researcher where
  id : String
  full_name : String
  orcid_id : Option String
  organization_id : Option String
deriving DecidableEq

/-- All suffixes of a character list, longest first. -/
def suffixes : List Char → List (List Char)
  | [] => [[]]
  | c :: t => (c :: t) :: suffixes t

/-- SQL `LIKE` matching with `%` and `_` wildcards: `%` matches any
sequence (the rest of the pattern must match some suffix of the subject),
`_` matches one character, anything else matches itself. -/
def likeM : List Char → List Char → Bool
  | [], s => s.isEmpty
  | c :: p, s =>
      if c == '%' then (suffixes s).any (fun t => likeM p t)
      else
        match s with
        | [] => false
        | d :: t => if c == '_' then likeM p t else c == d && likeM p t

/-- Model of `Researcher.full_name.ilike(f"%{name}%")`: case-insensitive `LIKE`
with the name wrapped in `%`. -/
def ilikeContains (full pat : String) : Bool :=
  likeM ('%' :: ((pyLower pat).data ++ ['%'])) (pyLower full).data

/-- The name+organization filter of researcher_enricher.py:227-230 and
293-297. -/
def rMatchName (org : Option String) (nm : String) (r : Researcher) : Bool :=
  ilikeContains r.full_name nm && r.organization_id == org

/-- The `Researcher.orcid_id == orcid` filter (lines 218-220, 288-290). -/
def rMatchOrcid (x : Option String) (r : Researcher) : Bool :=
  r.orcid_id == x

/-- ORCID backfill on a name-matched researcher (lines 234-235):
`if orcid and not researcher.orcid_id: researcher.orcid_id = orcid`. -/
def fillOrcid (doFill : Bool) (x : Option String) (r : Researcher) : Researcher :=
  if doFill && !truthy r.orcid_id then ⟨r.id, r.full_name, x, r.organization_id⟩ else r

/-- Name+org lookup walking the table in insertion order, applying the
backfill to the first match; returns the updated table and the match's id. -/
def nameUpsertGo (doFill : Bool) (x : Option String) (org : Option String) (nm : String) :
    List Researcher → Option (List Researcher × String)
  | [] => none
  | r :: rest =>
      if rMatchName org nm r then some (fillOrcid doFill x r :: rest, r.id)
      else (nameUpsertGo doFill x org nm rest).map (fun p => (r :: p.1, p.2))

/-- Synthesised id for a newly created researcher (lines 240-242):
`f"{org_id}:{name.replace(' ', '_').lower()}"`, replaced by the orcid when
that is truthy. -/
def synthId (org : Option String) (nm : String) : String :=
  (match org with | none => "None" | some s => s) ++ ":" ++
    pyLower ⟨nm.data.map (fun c => if c == ' ' then '_' else c)⟩

/-- Id of a freshly created researcher (lines 240-242): the orcid when
truthy, otherwise the organization/name slug. -/
def upsertNewId (org : Option String) (nm : String) (x : Option String) : String :=
  if truthy x then (match x with | some v => v | none => "") else synthId org nm

/-- Model of `_create_or_update_researcher` (researcher_enricher.py:199-256):
returns the updated researcher table, the id of the researcher the merged
author resolved to, and whether a new researcher was created. -/
def upsert (rs : List Researcher) (org : Option String) (nm0 : String) (x : Option String) :
    List Researcher × String × Bool :=
  let nm := pyStrip nm0
  match (if truthy x then rs.find? (rMatchOrcid x) else none) with
  | some r => (rs, r.id, false)
  | none =>
      match nameUpsertGo (truthy x) x org nm rs with
      | some (rs', i) => (rs', i, false)
      | none => (rs ++ [⟨upsertNewId org nm x, nm, x, org⟩], upsertNewId org nm x, true)

/-- The pure lookup portion of `_create_or_update_researcher`
(lines 216-230): identifier first (global), else name+organization —
including the null-organization bucket, since SQLAlchemy renders
`organization_id == None` as `IS NULL`. -/
def upsertResolve (rs : List Researcher) (org : Option String) (nm0 : String)
    (x : Option String) : Option Researcher :=
  match (if truthy x then rs.find? (rMatchOrcid x) else none) with
  | some r => some r
  | none => rs.find? (rMatchName org (pyStrip nm0))

/-! ## Authorship linker (researcher_enricher.py:258-322) -/

/-- Mention resolution in `_link_researchers_to_publications`
(lines 285-297): identifier first; the name+organization fallback runs only
when `pub.organization_id` is truthy (`if not researcher and
pub.organization_id:`). -/
def linkerResolve (rs : List Researcher) (porg : Option String) (nm0 : String)
    (x : Option String) : Option Researcher :=
  match (if truthy x then rs.find? (rMatchOrcid x) else none) with
  | some r => some r
  | none => if truthy porg then rs.find? (rMatchName porg (pyStrip nm0)) else none

/-- Per-author-entry linking (lines 280-314): resolve, then insert the
(publication, researcher) pair unless it already exists.  An unresolvable
entry falls through silently — the code has no `else` branch and performs
no counting there. -/
def linkEntry (rs : List Researcher) (p : Pub) (st : List (String × String) × Nat)
    (e : AuthorEntry) : List (String × String) × Nat :=
  match linkerResolve rs p.organization_id e.name e.orcid with
  | none => st
  | some r =>
      if (p.id, r.id) ∈ st.1 then st else (st.1 ++ [(p.id, r.id)], st.2 + 1)

def linkEntries (rs : List Researcher) (p : Pub) :
    List (String × String) × Nat → List AuthorEntry → List (String × String) × Nat
  | st, [] => st
  | st, e :: es => linkEntries rs p (linkEntry rs p st e) es

def linkPub (rs : List Researcher) (st : List (String × String) × Nat) (p : Pub) :
    List (String × String) × Nat :=
  match p.authors with
  | none => st
  | some es => linkEntries rs p st es

def linkAllGo (rs : List Researcher) :
    List (String × String) × Nat → List Pub → List (String × String) × Nat
  | st, [] => st
  | st, p :: ps => linkAllGo rs (linkPub rs st p) ps

/-- Model of `_link_researchers_to_publications`: fold over all publications carrying
author metadata; returns the link table and the `linked` counter (the local
`errors` counter of the code is incremented only inside `except` blocks —
unreachable in this exception-free model — and is never written to the
returned stats, line 321). -/
def linkAll (rs : List Researcher) (pubs : List Pub) (links : List (String × String)) :
    List (String × String) × Nat :=
  linkAllGo rs (links, 0) pubs

/-! ## Full enrichment run (researcher_enricher.py:43-141) -/

structure DBState where
  researchers : List Researcher
  links : List (String × String)
deriving DecidableEq

structure RunOut where
  state : DBState
  ids : List String
  created : Nat
  linked : Nat
  errors : Nat
deriving DecidableEq

/-- The sequence of (organization, merged author) pairs the upsert phase
walks: groups in first-appearance order, each deduplicated. -/
def mergedOf (thr : Nat) (pubs : List Pub) : List (Option String × Cluster) :=
  (groupsOf pubs).flatMap (fun g => (dedup thr g.2).map (fun c => (g.1, c)))

/-- Upsert phase over the merged authors, threading the researcher table
and collecting the resolved id of every call and the count of created
researchers. -/
def upsertAll : List Researcher → List (Option String × Cluster) →
    List Researcher × List String × Nat
  | rs, [] => (rs, [], 0)
  | rs, oc :: rest =>
      let u := upsert rs oc.1 oc.2.name oc.2.orcid
      let w := upsertAll u.1 rest
      (w.1, u.2.1 :: w.2.1, (if u.2.2 then 1 else 0) + w.2.2)

/-- Model of `enrich_all` (researcher_enricher.py:43-141): extract, group, dedup,
upsert and link.  `errors` stays 0 because all modelled operations are
total, so no `except` branch can fire. -/
def runEnrich (thr : Nat) (st : DBState) (pubs : List Pub) : RunOut :=
  let u := upsertAll st.researchers (mergedOf thr pubs)
  let lk := linkAll u.1 pubs st.links
  ⟨⟨u.1, lk.1⟩, u.2.1, u.2.2, lk.2, 0⟩

/-! ## Proof infrastructure

`rEvol`/`Evol` describe how the researcher table can evolve during a run:
ids, names and organizations of existing rows never change, an ORCID can
only be backfilled from a falsy to a truthy value, and new rows are only
appended.  `resolvedOK` is the stability invariant of one merged author:
once it holds, a later `upsert` for that author finds an existing row and
mutates nothing.  `clusterRel` is the pairwise invariant of the cluster
list maintained by `_deduplicate_authors`. -/

def rEvol (a b : Researcher) : Prop :=
  b.id = a.id ∧ b.full_name = a.full_name ∧ b.organization_id = a.organization_id ∧
  (b.orcid_id = a.orcid_id ∨ (truthy a.orcid_id = false ∧ truthy b.orcid_id = true))

inductive Evol : List Researcher → List Researcher → Prop
  | nil (ext : List Researcher) : Evol [] ext
  | cons {a b : Researcher} {old new : List Researcher} :
      rEvol a b → Evol old new → Evol (a :: old) (b :: new)

def resolvedOK (rs : List Researcher) (org : Option String) (nm0 : String)
    (x : Option String) : Prop :=
  if truthy x then
    (∃ r ∈ rs, r.orcid_id = x) ∨
    (∃ r, rs.find? (rMatchName org (pyStrip nm0)) = some r ∧ truthy r.orcid_id = true)
  else
    (rs.find? (rMatchName org (pyStrip nm0))).isSome = true

def clusterRel (thr : Nat) (c d : Cluster) : Prop :=
  (truthy c.orcid = true → c.orcid ≠ d.orcid) ∧
  (truthy c.orcid = false → truthy d.orcid = false → dedupScore d.name c.name < thr)

set_option maxRecDepth 40000

/-! ## Concrete counterexamples -/

/-- Claim C1, counterexample: the claim states that the matcher used by the
disambiguation pipeline computes both the token-order-insensitive ratio and
the partial/subset ratio and returns their maximum.  The pipeline
(researcher_enricher.py:185) computes only `fuzz.token_sort_ratio`: on the
trimmed, case-folded names "jane" and "jane doe" the pipeline score is 67,
while the maximum of the two ratios the claim describes is 100. -/
theorem C1_counterexample :
    dedupScore "Jane" "Jane Doe" = 67 ∧
    max (tokenSortScore (pyStrip (pyLower "Jane")) (pyStrip (pyLower "Jane Doe")))
        (tokenSetAlignScore (pyStrip (pyLower "Jane")) (pyStrip (pyLower "Jane Doe"))) = 100 ∧
    dedupScore "Jane" "Jane Doe" ≠
      max (tokenSortScore (pyStrip (pyLower "Jane")) (pyStrip (pyLower "Jane Doe")))
        (tokenSetAlignScore (pyStrip (pyLower "Jane")) (pyStrip (pyLower "Jane Doe"))) := by
  decide

/-- Claim C3, counterexample: two mentions carrying the same non-null
identifier `""` (a legal value of the optional string field, distinct from
a missing identifier) with names of similarity 0 end up in two distinct
clusters, because `if orcid:` treats the empty string as absent and routes
both mentions through the fuzzy-name path. -/
theorem C3_counterexample :
    (dedup 90 [⟨"ab", some "", none, "p1", none⟩, ⟨"cd", some "", none, "p2", none⟩]).length
      = 2 ∧
    (dedup 90 [⟨"ab", some "", none, "p1", none⟩, ⟨"cd", some "", none, "p2", none⟩]).map
        Cluster.orcid = [some "", some ""] ∧
    dedupScore "ab" "cd" = 0 := by
  decide

/-- Claim C4: on the four-mention scenario of the spec at threshold 90
within one organization, disambiguation produces exactly the two expected
clusters: an identifier-less cluster holding the first two mentions and an
identifier-bearing cluster holding the last two. -/
theorem C4_scenario :
    dedup 90
      [⟨"Jane Doe", none, none, "p1", some "org1"⟩,
       ⟨"Doe, Jane", none, none, "p2", some "org1"⟩,
       ⟨"J. Doe", some "0000-1111", none, "p3", some "org1"⟩,
       ⟨"Jane Doe", some "0000-1111", none, "p4", some "org1"⟩] =
      [⟨"Jane Doe", none, none, "p1", some "org1",
        [⟨"Jane Doe", none, none, "p1", some "org1"⟩,
         ⟨"Doe, Jane", none, none, "p2", some "org1"⟩]⟩,
       ⟨"J. Doe", some "0000-1111", none, "p3", some "org1",
        [⟨"J. Doe", some "0000-1111", none, "p3", some "org1"⟩,
         ⟨"Jane Doe", some "0000-1111", none, "p4", some "org1"⟩]⟩] := by
  decide

/-- Claim C5, counterexample: on a mention without identifier whose
publication has no organization context, the upsert lookup resolves the
researcher through the name + NULL-organization bucket, while the linker
(guarded by `if not researcher and pub.organization_id:`,
researcher_enricher.py:293) skips the name fallback entirely and resolves
nothing — so the two lookup procedures are not equivalent on every
mention. -/
theorem C5_counterexample :
    upsertResolve [⟨"r1", "Jane Doe", none, none⟩] none "Jane Doe" none =
      some ⟨"r1", "Jane Doe", none, none⟩ ∧
    linkerResolve [⟨"r1", "Jane Doe", none, none⟩] none "Jane Doe" none = none := by
  decide

/-- Claim C7, counterexample: after disambiguating two mentions that both
carry the identifier `""` under dissimilar names, the cluster list contains
two clusters with the same non-null identifier, violating the invariant as
stated (the code keys the identifier merge on Python truthiness, so `""`
never joins the `seen` map). -/
theorem C7_counterexample :
    (dedup 90 [⟨"ef", some "", none, "p1", none⟩, ⟨"gh", some "", none, "p2", none⟩]).map
        Cluster.orcid = [some "", some ""] ∧
    (some "" : Option String) ≠ none := by
  decide

/-- Claim C9, counterexample: an unresolvable mention ("Ghost") is skipped
without halting — the following mention of the same publication is still
linked — but contrary to the claim it is not counted anywhere: the linker
returns only the link table and the `linked` counter, and a full enrichment
run containing an unresolvable mention (an identifier-less author on a
publication with no organization, unreachable by the linker's lookup)
reports 0 errors. -/
theorem C9_counterexample :
    linkerResolve [⟨"o1:bob", "Bob", none, some "o1"⟩] (some "o1") "Ghost" none = none ∧
    linkAll [⟨"o1:bob", "Bob", none, some "o1"⟩]
        [⟨"p1", some "o1", some [⟨"Ghost", none, none⟩, ⟨"Bob", none, none⟩]⟩] [] =
      ([("p1", "o1:bob")], 1) ∧
    (runEnrich 90 ⟨[], []⟩ [⟨"q1", none, some [⟨"Solo", none, none⟩]⟩]).linked = 0 ∧
    (runEnrich 90 ⟨[], []⟩ [⟨"q1", none, some [⟨"Solo", none, none⟩]⟩]).errors = 0 ∧
    linkerResolve
        (runEnrich 90 ⟨[], []⟩ [⟨"q1", none, some [⟨"Solo", none, none⟩]⟩]).state.researchers
        none "Solo" none = none := by
  decide

/-- Claim C10, counterexample: a cluster whose affiliation is the non-null
(but falsy) string `""` has that affiliation overwritten by a later
mention's affiliation during a merge, because the guard is Python
truthiness (`not existing_author["affiliation"]`), not a null check. -/
theorem C10_counterexample :
    (dedup 90 [⟨"ann", none, some "", "p1", none⟩, ⟨"ann", none, some "X", "p2", none⟩]).map
        Cluster.affiliation = [some "X"] ∧
    (dedup 90 [⟨"ann", none, some "", "p1", none⟩, ⟨"ann", none, some "X", "p2", none⟩]).length
      = 1 ∧
    (some "" : Option String) ≠ none := by
  decide

/-- Claim C2, counterexample: running the pipeline twice on an unchanged
publication set from an empty store creates nothing new on the second run,
but the profile ids resolved on the second run are not all equal to those
of the first run: the mention ("Ann", orcid "X") resolves by name to the
profile "Y" on the first run (no profile carries "X" yet), while on the
second run the profile "X" — created later in run one for another
organization — captures it through the identifier lookup. -/
theorem C2_counterexample :
    (runEnrich 90 ⟨[], []⟩
        [⟨"p1", some "o1", some [⟨"Ann Lee", some "Y", none⟩]⟩,
         ⟨"p2", some "o1", some [⟨"Ann", some "X", none⟩]⟩,
         ⟨"p3", some "o2", some [⟨"Zoe", some "X", none⟩]⟩]).ids = ["Y", "Y", "X"] ∧
    (runEnrich 90
        (runEnrich 90 ⟨[], []⟩
          [⟨"p1", some "o1", some [⟨"Ann Lee", some "Y", none⟩]⟩,
           ⟨"p2", some "o1", some [⟨"Ann", some "X", none⟩]⟩,
           ⟨"p3", some "o2", some [⟨"Zoe", some "X", none⟩]⟩]).state
        [⟨"p1", some "o1", some [⟨"Ann Lee", some "Y", none⟩]⟩,
         ⟨"p2", some "o1", some [⟨"Ann", some "X", none⟩]⟩,
         ⟨"p3", some "o2", some [⟨"Zoe", some "X", none⟩]⟩]).ids = ["Y", "X", "X"] ∧
    ["Y", "X", "X"] ≠ ["Y", "Y", "X"] := by
  decide

/-! ## Generic list lemmas -/

theorem find?_shape {α : Type} {q : α → Bool} :
    ∀ {l : List α} {r : α}, l.find? q = some r →
      ∃ pre post, l = pre ++ r :: post ∧ (∀ y ∈ pre, q y = false) ∧ q r = true := by
  intro l
  induction l with
  | nil => intro r h; simp at h
  | cons a t ih =>
    intro r h
    by_cases hqa : q a = true
    · rw [List.find?_cons_of_pos _ hqa] at h
      cases h
      exact ⟨[], t, rfl, by simp, hqa⟩
    · rw [List.find?_cons_of_neg _ hqa] at h
      obtain ⟨pre, post, rfl, hpre, hr⟩ := ih h
      refine ⟨a :: pre, post, rfl, ?_, hr⟩
      intro y hy
      rcases List.mem_cons.mp hy with h1 | h1
      · subst h1; exact Bool.eq_false_iff.mpr hqa
      · exact hpre y h1

theorem find?_of_shape {α : Type} {q : α → Bool} (pre : List α) (r : α) (post : List α)
    (hpre : ∀ y ∈ pre, q y = false) (hr : q r = true) :
    (pre ++ r :: post).find? q = some r := by
  induction pre with
  | nil => simpa using List.find?_cons_of_pos post hr
  | cons a t ih =>
    have ha : ¬ q a = true := by
      have := hpre a (by simp)
      simp [this]
    rw [List.cons_append, List.find?_cons_of_neg _ ha]
    exact ih (fun y hy => hpre y (by simp [hy]))

theorem find?_isSome_of_mem {α : Type} {q : α → Bool} {l : List α} {r : α}
    (hm : r ∈ l) (hq : q r = true) : (l.find? q).isSome = true := by
  induction l with
  | nil => cases hm
  | cons a t ih =>
    by_cases hqa : q a = true
    · rw [List.find?_cons_of_pos _ hqa]; rfl
    · rw [List.find?_cons_of_neg _ hqa]
      rcases List.mem_cons.mp hm with h1 | h1
      · subst h1; exact absurd hq hqa
      · exact ih h1

/-! ## `LIKE` self-containment -/

theorem self_mem_suffixes : ∀ s : List Char, s ∈ suffixes s := by
  intro s
  cases s with
  | nil => simp [suffixes]
  | cons c t => simp [suffixes]

theorem likeM_append_pct_self : ∀ p : List Char, likeM (p ++ ['%']) p = true := by
  intro p
  induction p with
  | nil => decide
  | cons c p ih =>
    show likeM (c :: (p ++ ['%'])) (c :: p) = true
    simp only [likeM]
    by_cases hc : (c == '%') = true
    · rw [if_pos hc]
      refine List.any_eq_true.mpr ⟨p, ?_, ih⟩
      have : p ∈ suffixes p := self_mem_suffixes p
      simp [suffixes, this]
    · rw [if_neg hc]
      by_cases hu : (c == '_') = true
      · simpa [hu] using ih
      · simp [hu, ih]

theorem ilikeContains_self (s : String) : ilikeContains s s = true := by
  show likeM ('%' :: ((pyLower s).data ++ ['%'])) (pyLower s).data = true
  simp only [likeM]
  rw [if_pos (by decide)]
  exact List.any_eq_true.mpr ⟨(pyLower s).data, self_mem_suffixes _,
    likeM_append_pct_self _⟩

/-! ## Dedup merge-helper characterisations -/

theorem mergeByOrcid_none {m : Mention} :
    ∀ {cs : List Cluster}, mergeByOrcid m cs = none →
      ∀ c ∈ cs, (c.orcid == m.orcid) = false := by
  intro cs
  induction cs with
  | nil => intro _ c hc; cases hc
  | cons a t ih =>
    intro h c hc
    simp only [mergeByOrcid] at h
    by_cases ha : (a.orcid == m.orcid) = true
    · rw [if_pos ha] at h; cases h
    · rw [if_neg ha, Option.map_eq_none'] at h
      rcases List.mem_cons.mp hc with h1 | h1
      · subst h1; exact Bool.eq_false_iff.mpr ha
      · exact ih h _ h1

theorem mergeByOrcid_spec {m : Mention} :
    ∀ {cs cs' : List Cluster}, mergeByOrcid m cs = some cs' →
      ∃ pre c post, cs = pre ++ c :: post ∧ cs' = pre ++ mergeInto m c :: post ∧
        (∀ d ∈ pre, (d.orcid == m.orcid) = false) ∧ (c.orcid == m.orcid) = true := by
  intro cs
  induction cs with
  | nil => intro cs' h; cases h
  | cons a t ih =>
    intro cs' h
    simp only [mergeByOrcid] at h
    by_cases ha : (a.orcid == m.orcid) = true
    · rw [if_pos ha] at h
      cases h
      exact ⟨[], a, t, rfl, rfl, by simp, ha⟩
    · rw [if_neg ha, Option.map_eq_some'] at h
      obtain ⟨t', ht, rfl⟩ := h
      obtain ⟨pre, c, post, rfl, rfl, hpre, hc⟩ := ih ht
      refine ⟨a :: pre, c, post, rfl, rfl, ?_, hc⟩
      intro d hd
      rcases List.mem_cons.mp hd with h1 | h1
      · subst h1; exact Bool.eq_false_iff.mpr ha
      · exact hpre d h1

theorem mergeByName_none {thr : Nat} {m : Mention} :
    ∀ {cs : List Cluster}, mergeByName thr m cs = none →
      ∀ c ∈ cs, nameMatches thr m c = false := by
  intro cs
  induction cs with
  | nil => intro _ c hc; cases hc
  | cons a t ih =>
    intro h c hc
    simp only [mergeByName] at h
    by_cases ha : nameMatches thr m a = true
    · rw [if_pos ha] at h; cases h
    · rw [if_neg ha, Option.map_eq_none'] at h
      rcases List.mem_cons.mp hc with h1 | h1
      · subst h1; exact Bool.eq_false_iff.mpr ha
      · exact ih h _ h1

theorem mergeByName_spec {thr : Nat} {m : Mention} :
    ∀ {cs cs' : List Cluster}, mergeByName thr m cs = some cs' →
      ∃ pre c post, cs = pre ++ c :: post ∧ cs' = pre ++ mergeInto m c :: post ∧
        (∀ d ∈ pre, nameMatches thr m d = false) ∧ nameMatches thr m c = true := by
  intro cs
  induction cs with
  | nil => intro cs' h; cases h
  | cons a t ih =>
    intro cs' h
    simp only [mergeByName] at h
    by_cases ha : nameMatches thr m a = true
    · rw [if_pos ha] at h
      cases h
      exact ⟨[], a, t, rfl, rfl, by simp, ha⟩
    · rw [if_neg ha, Option.map_eq_some'] at h
      obtain ⟨t', ht, rfl⟩ := h
      obtain ⟨pre, c, post, rfl, rfl, hpre, hc⟩ := ih ht
      refine ⟨a :: pre, c, post, rfl, rfl, ?_, hc⟩
      intro d hd
      rcases List.mem_cons.mp hd with h1 | h1
      · subst h1; exact Bool.eq_false_iff.mpr ha
      · exact hpre d h1

theorem mergeByName_isSome_of_match {thr : Nat} {m : Mention} :
    ∀ {cs : List Cluster} {c : Cluster}, c ∈ cs → nameMatches thr m c = true →
      (mergeByName thr m cs).isSome = true := by
  intro cs
  induction cs with
  | nil => intro c hc; cases hc
  | cons a t ih =>
    intro c hc hm
    simp only [mergeByName]
    by_cases ha : nameMatches thr m a = true
    · rw [if_pos ha]; rfl
    · rw [if_neg ha]
      rcases List.mem_cons.mp hc with h1 | h1
      · subst h1; exact absurd hm ha
      · rw [Option.isSome_map']
        exact ih h1 hm

theorem dedupStep_orcid_some {thr : Nat} {cs cs' : List Cluster} {m : Mention}
    (hx : truthy m.orcid = true) (h : mergeByOrcid m cs = some cs') :
    dedupStep thr cs m = cs' := by
  unfold dedupStep; rw [if_pos hx, h]

theorem dedupStep_orcid_none {thr : Nat} {cs : List Cluster} {m : Mention}
    (hx : truthy m.orcid = true) (h : mergeByOrcid m cs = none) :
    dedupStep thr cs m = cs ++ [newCluster m] := by
  unfold dedupStep; rw [if_pos hx, h]

theorem dedupStep_name_some {thr : Nat} {cs cs' : List Cluster} {m : Mention}
    (hx : ¬ truthy m.orcid = true) (h : mergeByName thr m cs = some cs') :
    dedupStep thr cs m = cs' := by
  unfold dedupStep; rw [if_neg hx, h]

theorem dedupStep_name_none {thr : Nat} {cs : List Cluster} {m : Mention}
    (hx : ¬ truthy m.orcid = true) (h : mergeByName thr m cs = none) :
    dedupStep thr cs m = cs ++ [newCluster m] := by
  unfold dedupStep; rw [if_neg hx, h]

/-- Every `dedupStep` either appends a fresh singleton cluster or merges the
mention into exactly one existing cluster, leaving the rest untouched. -/
theorem dedupStep_shape (thr : Nat) (cs : List Cluster) (m : Mention) :
    dedupStep thr cs m = cs ++ [newCluster m] ∨
    ∃ pre c post, cs = pre ++ c :: post ∧
      dedupStep thr cs m = pre ++ mergeInto m c :: post := by
  by_cases hx : truthy m.orcid = true
  · cases ho : mergeByOrcid m cs with
    | none => exact Or.inl (dedupStep_orcid_none hx ho)
    | some cs' =>
      obtain ⟨pre, c, post, h1, h2, _, _⟩ := mergeByOrcid_spec ho
      exact Or.inr ⟨pre, c, post, h1, h2 ▸ dedupStep_orcid_some hx ho⟩
  · cases hn : mergeByName thr m cs with
    | none => exact Or.inl (dedupStep_name_none hx hn)
    | some cs' =>
      obtain ⟨pre, c, post, h1, h2, _, _⟩ := mergeByName_spec hn
      exact Or.inr ⟨pre, c, post, h1, h2 ▸ dedupStep_name_some hx hn⟩

/-! ## Dedup fold invariants -/

/-- Any property of mentions transfers to all cluster members. -/
theorem dedup_members_pred (thr : Nat) (P : Mention → Prop) :
    ∀ (ms : List Mention) (cs : List Cluster),
      (∀ c ∈ cs, ∀ m ∈ c.members, P m) → (∀ m ∈ ms, P m) →
      ∀ c ∈ ms.foldl (dedupStep thr) cs, ∀ m ∈ c.members, P m := by
  intro ms
  induction ms with
  | nil => intro cs hcs _; simpa using hcs
  | cons m0 rest ih =>
    intro cs hcs hms
    rw [List.foldl_cons]
    refine ih _ ?_ (fun m hm => hms m (List.mem_cons_of_mem _ hm))
    intro c hc mm hmm
    have hm0 : P m0 := hms m0 (List.mem_cons_self _ _)
    rcases dedupStep_shape thr cs m0 with h | ⟨pre, c0, post, hshape, h⟩
    · rw [h] at hc
      rcases List.mem_append.mp hc with h1 | h1
      · exact hcs c h1 mm hmm
      · have hce : c = newCluster m0 := by simpa using h1
        subst hce
        have : mm = m0 := by simpa [newCluster] using hmm
        subst this; exact hm0
    · rw [h] at hc
      subst hshape
      rcases List.mem_append.mp hc with h1 | h1
      · exact hcs c (List.mem_append_left _ h1) mm hmm
      · rcases List.mem_cons.mp h1 with h2 | h2
        · subst h2
          have hmm' : mm ∈ c0.members ++ [m0] := by simpa [mergeInto] using hmm
          rcases List.mem_append.mp hmm' with h3 | h3
          · exact hcs c0 (List.mem_append_right _ (List.mem_cons_self _ _)) mm h3
          · have : mm = m0 := by simpa using h3
            subst this; exact hm0
        · exact hcs c (List.mem_append_right _ (List.mem_cons_of_mem _ h2)) mm hmm

/-- Every cluster's representative fields are those of its first member. -/
theorem dedup_rep_first (thr : Nat) :
    ∀ (ms : List Mention) (cs : List Cluster),
      (∀ c ∈ cs, ∃ m0 rest, c.members = m0 :: rest ∧ c.name = m0.name ∧ c.orcid = m0.orcid) →
      ∀ c ∈ ms.foldl (dedupStep thr) cs,
        ∃ m0 rest, c.members = m0 :: rest ∧ c.name = m0.name ∧ c.orcid = m0.orcid := by
  intro ms
  induction ms with
  | nil => intro cs hcs; simpa using hcs
  | cons m0 rest ih =>
    intro cs hcs
    rw [List.foldl_cons]
    refine ih _ ?_
    intro c hc
    rcases dedupStep_shape thr cs m0 with h | ⟨pre, c0, post, hshape, h⟩
    · rw [h] at hc
      rcases List.mem_append.mp hc with h1 | h1
      · exact hcs c h1
      · have hce : c = newCluster m0 := by simpa using h1
        subst hce
        exact ⟨m0, [], rfl, rfl, rfl⟩
    · rw [h] at hc
      subst hshape
      rcases List.mem_append.mp hc with h1 | h1
      · exact hcs c (List.mem_append_left _ h1)
      · rcases List.mem_cons.mp h1 with h2 | h2
        · subst h2
          obtain ⟨mh, mt, hmem, hname, horc⟩ :=
            hcs c0 (List.mem_append_right _ (List.mem_cons_self _ _))
          exact ⟨mh, mt ++ [m0], by simp [mergeInto, hmem], by simpa [mergeInto], by
            simpa [mergeInto]⟩
        · exact hcs c (List.mem_append_right _ (List.mem_cons_of_mem _ h2))

/-- A cluster bearing a given orcid survives every later step. -/
theorem dedupStep_orcid_preserve (thr : Nat) (cs : List Cluster) (m : Mention)
    (o : Option String) (h : ∃ c ∈ cs, c.orcid = o) :
    ∃ c ∈ dedupStep thr cs m, c.orcid = o := by
  obtain ⟨c, hc, ho⟩ := h
  rcases dedupStep_shape thr cs m with h1 | ⟨pre, c0, post, hshape, h1⟩
  · exact ⟨c, by rw [h1]; exact List.mem_append_left _ hc, ho⟩
  · subst hshape
    rcases List.mem_append.mp hc with hl | hr
    · exact ⟨c, by rw [h1]; exact List.mem_append_left _ hl, ho⟩
    · rcases List.mem_cons.mp hr with he | ht
      · subst he
        refine ⟨mergeInto m c, ?_, by simpa [mergeInto] using ho⟩
        rw [h1]; exact List.mem_append_right _ (List.mem_cons_self _ _)
      · exact ⟨c, by rw [h1]; exact List.mem_append_right _ (List.mem_cons_of_mem _ ht), ho⟩

theorem foldl_orcid_preserve (thr : Nat) (o : Option String) :
    ∀ (ms : List Mention) (cs : List Cluster), (∃ c ∈ cs, c.orcid = o) →
      ∃ c ∈ ms.foldl (dedupStep thr) cs, c.orcid = o := by
  intro ms
  induction ms with
  | nil => intro cs h; simpa using h
  | cons m0 rest ih =>
    intro cs h
    rw [List.foldl_cons]
    exact ih _ (dedupStep_orcid_preserve thr cs m0 o h)

/-- Processing a mention with a truthy orcid leaves a cluster with that
orcid in the state. -/
theorem dedupStep_has_orcid (thr : Nat) (cs : List Cluster) (m : Mention)
    (hx : truthy m.orcid = true) : ∃ c ∈ dedupStep thr cs m, c.orcid = m.orcid := by
  cases ho : mergeByOrcid m cs with
  | none =>
    rw [dedupStep_orcid_none hx ho]
    exact ⟨newCluster m, by simp, rfl⟩
  | some cs' =>
    rw [dedupStep_orcid_some hx ho]
    obtain ⟨pre, c, post, h1, h2, _, hc⟩ := mergeByOrcid_spec ho
    subst h2
    refine ⟨mergeInto m c, List.mem_append_right _ (List.mem_cons_self _ _), ?_⟩
    simpa [mergeInto] using eq_of_beq hc

/-- Every truthy identifier occurring among the input mentions is carried by
some output cluster. -/
theorem dedup_orcid_exists (thr : Nat) :
    ∀ (ms : List Mention) (cs : List Cluster) (m0 : Mention), m0 ∈ ms →
      truthy m0.orcid = true →
      ∃ c ∈ ms.foldl (dedupStep thr) cs, c.orcid = m0.orcid := by
  intro ms
  induction ms with
  | nil => intro cs m0 h; cases h
  | cons m1 rest ih =>
    intro cs m0 hm hx
    rw [List.foldl_cons]
    rcases List.mem_cons.mp hm with h1 | h1
    · subst h1
      exact foldl_orcid_preserve thr m0.orcid rest _ (dedupStep_has_orcid thr cs m0 hx)
    · exact ih _ m0 h1 hx

/-! ## Pairwise cluster invariant -/

theorem clusterRel_merge_r (thr : Nat) (m : Mention) {z c : Cluster}
    (h : clusterRel thr z c) : clusterRel thr z (mergeInto m c) := by
  obtain ⟨h1, h2⟩ := h
  constructor
  · intro ht
    simpa [mergeInto] using h1 ht
  · intro ht hf
    have hf' : truthy c.orcid = false := by simpa [mergeInto] using hf
    simpa [mergeInto] using h2 ht hf'

theorem clusterRel_merge_l (thr : Nat) (m : Mention) {z c : Cluster}
    (h : clusterRel thr c z) : clusterRel thr (mergeInto m c) z := by
  obtain ⟨h1, h2⟩ := h
  constructor
  · intro ht
    have ht' : truthy c.orcid = true := by simpa [mergeInto] using ht
    simpa [mergeInto] using h1 ht'
  · intro ht hf
    have ht' : truthy c.orcid = false := by simpa [mergeInto] using ht
    exact h2 ht' hf

theorem pairwise_middle {R : Cluster → Cluster → Prop} {pre post : List Cluster} {c c' : Cluster}
    (h : List.Pairwise R (pre ++ c :: post))
    (h1 : ∀ z, R z c → R z c') (h2 : ∀ z, R c z → R c' z) :
    List.Pairwise R (pre ++ c' :: post) := by
  rw [List.pairwise_append] at h ⊢
  obtain ⟨hp, hcp, hx⟩ := h
  rw [List.pairwise_cons] at hcp ⊢
  refine ⟨hp, ⟨fun z hz => h2 z (hcp.1 z hz), hcp.2⟩, ?_⟩
  intro a ha b hb
  rcases List.mem_cons.mp hb with hb1 | hb1
  · subst hb1
    exact h1 a (hx a ha c (List.mem_cons_self _ _))
  · exact hx a ha b (List.mem_cons_of_mem _ hb1)

theorem dedupStep_pairwise (thr : Nat) (cs : List Cluster) (m : Mention)
    (h : List.Pairwise (clusterRel thr) cs) :
    List.Pairwise (clusterRel thr) (dedupStep thr cs m) := by
  by_cases hx : truthy m.orcid = true
  · cases ho : mergeByOrcid m cs with
    | some cs' =>
      rw [dedupStep_orcid_some hx ho]
      obtain ⟨pre, c, post, h1, h2, _, _⟩ := mergeByOrcid_spec ho
      subst h1; subst h2
      exact pairwise_middle h (fun z => clusterRel_merge_r thr m)
        (fun z => clusterRel_merge_l thr m)
    | none =>
      rw [dedupStep_orcid_none hx ho]
      rw [List.pairwise_append]
      refine ⟨h, List.pairwise_singleton _ _, ?_⟩
      intro a ha b hb
      have hb' : b = newCluster m := by simpa using hb
      subst hb'
      have hne := mergeByOrcid_none ho a ha
      constructor
      · intro _ heq
        have : (a.orcid == m.orcid) = true := beq_iff_eq.mpr heq
        rw [hne] at this
        cases this
      · intro _ hf
        have : truthy m.orcid = false := hf
        rw [hx] at this
        cases this
  · cases hn : mergeByName thr m cs with
    | some cs' =>
      rw [dedupStep_name_some hx hn]
      obtain ⟨pre, c, post, h1, h2, _, _⟩ := mergeByName_spec hn
      subst h1; subst h2
      exact pairwise_middle h (fun z => clusterRel_merge_r thr m)
        (fun z => clusterRel_merge_l thr m)
    | none =>
      rw [dedupStep_name_none hx hn]
      rw [List.pairwise_append]
      refine ⟨h, List.pairwise_singleton _ _, ?_⟩
      intro a ha b hb
      have hb' : b = newCluster m := by simpa using hb
      subst hb'
      have hnm := mergeByName_none hn a ha
      constructor
      · intro hta heq
        have : truthy m.orcid = true := by
          have : a.orcid = m.orcid := heq
          rw [← this]; exact hta
        exact hx this
      · intro hta _
        have : nameMatches thr m a = false := hnm
        rw [nameMatches, hta] at this
        simp at this
        simpa [newCluster] using this

theorem dedup_pairwise_aux (thr : Nat) :
    ∀ (ms : List Mention) (cs : List Cluster), List.Pairwise (clusterRel thr) cs →
      List.Pairwise (clusterRel thr) (ms.foldl (dedupStep thr) cs) := by
  intro ms
  induction ms with
  | nil => intro cs h; simpa using h
  | cons m0 rest ih =>
    intro cs h
    rw [List.foldl_cons]
    exact ih _ (dedupStep_pairwise thr cs m0 h)

theorem dedup_pairwise (thr : Nat) (ms : List Mention) :
    List.Pairwise (clusterRel thr) (dedup thr ms) :=
  dedup_pairwise_aux thr ms [] (List.Pairwise.nil)

/-- Identifier-bearing members always carry exactly their cluster's
identifier. -/
theorem dedup_members_orcid (thr : Nat) :
    ∀ (ms : List Mention) (cs : List Cluster),
      (∀ c ∈ cs, ∀ m ∈ c.members, truthy m.orcid = true → m.orcid = c.orcid) →
      ∀ c ∈ ms.foldl (dedupStep thr) cs, ∀ m ∈ c.members,
        truthy m.orcid = true → m.orcid = c.orcid := by
  intro ms
  induction ms with
  | nil => intro cs hcs; simpa using hcs
  | cons m0 rest ih =>
    intro cs hcs
    rw [List.foldl_cons]
    refine ih _ ?_
    intro c hc mm hmm htr
    by_cases hx : truthy m0.orcid = true
    · cases ho : mergeByOrcid m0 cs with
      | none =>
        rw [dedupStep_orcid_none hx ho] at hc
        rcases List.mem_append.mp hc with h1 | h1
        · exact hcs c h1 mm hmm htr
        · have hce : c = newCluster m0 := by simpa using h1
          subst hce
          have : mm = m0 := by simpa [newCluster] using hmm
          subst this; rfl
      | some cs' =>
        rw [dedupStep_orcid_some hx ho] at hc
        obtain ⟨pre, c0, post, h1, h2, _, hbeq⟩ := mergeByOrcid_spec ho
        subst h1; subst h2
        rcases List.mem_append.mp hc with h1 | h1
        · exact hcs c (List.mem_append_left _ h1) mm hmm htr
        · rcases List.mem_cons.mp h1 with h2 | h2
          · subst h2
            have hmm' : mm ∈ c0.members ++ [m0] := by simpa [mergeInto] using hmm
            rcases List.mem_append.mp hmm' with h3 | h3
            · have := hcs c0 (List.mem_append_right _ (List.mem_cons_self _ _)) mm h3 htr
              simpa [mergeInto] using this
            · have : mm = m0 := by simpa using h3
              subst this
              have : c0.orcid = mm.orcid := eq_of_beq hbeq
              simp [mergeInto, this]
          · exact hcs c (List.mem_append_right _ (List.mem_cons_of_mem _ h2)) mm hmm htr
    · cases hn : mergeByName thr m0 cs with
      | none =>
        rw [dedupStep_name_none hx hn] at hc
        rcases List.mem_append.mp hc with h1 | h1
        · exact hcs c h1 mm hmm htr
        · have hce : c = newCluster m0 := by simpa using h1
          subst hce
          have : mm = m0 := by simpa [newCluster] using hmm
          subst this; rfl
      | some cs' =>
        rw [dedupStep_name_some hx hn] at hc
        obtain ⟨pre, c0, post, h1, h2, _, _⟩ := mergeByName_spec hn
        subst h1; subst h2
        rcases List.mem_append.mp hc with h1 | h1
        · exact hcs c (List.mem_append_left _ h1) mm hmm htr
        · rcases List.mem_cons.mp h1 with h2 | h2
          · subst h2
            have hmm' : mm ∈ c0.members ++ [m0] := by simpa [mergeInto] using hmm
            rcases List.mem_append.mp hmm' with h3 | h3
            · have := hcs c0 (List.mem_append_right _ (List.mem_cons_self _ _)) mm h3 htr
              simpa [mergeInto] using this
            · have : mm = m0 := by simpa using h3
              subst this
              rw [htr] at hx
              exact absurd rfl hx
          · exact hcs c (List.mem_append_right _ (List.mem_cons_of_mem _ h2)) mm hmm htr

/-- At most one cluster carries any given truthy identifier. -/
theorem countP_orcid_le_one {thr : Nat} (id : String) (hid : id ≠ "") :
    ∀ {cs : List Cluster}, List.Pairwise (clusterRel thr) cs →
      cs.countP (fun c => c.orcid == some id) ≤ 1 := by
  intro cs
  induction cs with
  | nil => intro _; simp
  | cons a t ih =>
    intro h
    rw [List.pairwise_cons] at h
    obtain ⟨ha, ht⟩ := h
    by_cases hc : (a.orcid == some id) = true
    · have heq : a.orcid = some id := eq_of_beq hc
      have htr : truthy a.orcid = true := by
        rw [heq]; simp [truthy, hid]
      have hz : t.countP (fun c => c.orcid == some id) = 0 := by
        refine List.countP_eq_zero.mpr ?_
        intro b hb hbe
        have hbe' : b.orcid = some id := eq_of_beq hbe
        exact (ha b hb).1 htr (heq.trans hbe'.symm)
      rw [List.countP_cons, hz]
      simp [hc]
    · rw [List.countP_cons]
      have hcf : (a.orcid == some id) = false := by simp [hc]
      simpa [hcf] using ih ht

/-! ## Index helpers for append shapes -/

theorem getElemQ_before {α : Type} (pre : List α) (c : α) (post : List α) (l : Nat)
    (hl : l < pre.length) : (pre ++ c :: post)[l]? = pre[l]? := by
  rw [List.getElem?_append, if_pos hl]

theorem getElemQ_middle {α : Type} (pre : List α) (c : α) (post : List α) :
    (pre ++ c :: post)[pre.length]? = some c := by
  rw [List.getElem?_append, if_neg (by omega)]
  simp

theorem getElemQ_after {α : Type} (pre : List α) (c : α) (post : List α) (j : Nat)
    (hj : pre.length < j) : (pre ++ c :: post)[j]? = post[j - pre.length - 1]? := by
  rw [List.getElem?_append, if_neg (by omega)]
  have h2 : j - pre.length = (j - pre.length - 1) + 1 := by omega
  rw [h2]
  simp

/-! ## Amended dedup claims -/

/-- Claim C3 (amended): within one organization's mention sequence, all
mentions carrying the same truthy (non-null, non-empty) identifier end up
in a single cluster regardless of their name strings: at most one cluster
carries a given truthy identifier, at least one does whenever some mention
carries it, and every truthy-identifier member of a cluster carries exactly
its cluster's identifier — identifier equality is the only merge key for
truthy-identifier mentions.  (As frozen, the claim fails for the non-null
but empty identifier `""`, which Python truthiness treats as absent; see
the counterexample.) -/
theorem C3_amended (thr : Nat) (ms : List Mention) (id : String) (hid : id ≠ "") :
    ((dedup thr ms).countP (fun c => c.orcid == some id) ≤ 1) ∧
    ((∃ m ∈ ms, m.orcid = some id) → ∃ c ∈ dedup thr ms, c.orcid = some id) ∧
    (∀ c ∈ dedup thr ms, ∀ m ∈ c.members, truthy m.orcid = true → m.orcid = c.orcid) := by
  refine ⟨countP_orcid_le_one id hid (dedup_pairwise thr ms), ?_, ?_⟩
  · rintro ⟨m, hm, hmo⟩
    have htr : truthy m.orcid = true := by rw [hmo]; simp [truthy, hid]
    have := dedup_orcid_exists thr ms [] m hm htr
    rw [hmo] at this
    exact this
  · exact dedup_members_orcid thr ms [] (by simp)

/-- Claim C3 witness. -/
theorem C3_amended_witness :
    ("0000-1111" : String) ≠ "" ∧
    (((dedup 90 [⟨"abc", some "0000-1111", none, "p1", none⟩,
                 ⟨"zzz", some "0000-1111", none, "p2", none⟩]).countP
        (fun c => c.orcid == some "0000-1111") ≤ 1) ∧
     ((∃ m ∈ [(⟨"abc", some "0000-1111", none, "p1", none⟩ : Mention),
              ⟨"zzz", some "0000-1111", none, "p2", none⟩], m.orcid = some "0000-1111") →
        ∃ c ∈ dedup 90 [⟨"abc", some "0000-1111", none, "p1", none⟩,
                        ⟨"zzz", some "0000-1111", none, "p2", none⟩],
          c.orcid = some "0000-1111") ∧
     (∀ c ∈ dedup 90 [⟨"abc", some "0000-1111", none, "p1", none⟩,
                      ⟨"zzz", some "0000-1111", none, "p2", none⟩],
        ∀ m ∈ c.members, truthy m.orcid = true → m.orcid = c.orcid)) :=
  ⟨by decide, C3_amended 90 _ "0000-1111" (by decide)⟩

/-- Claim C7 (amended): within one organization context and for every input
sequence and threshold, no two clusters carry the same truthy (non-null,
non-empty) identifier, and for two clusters that both lack truthy
identifiers, the later-created cluster's representative name scores below
the threshold against the earlier one's.  (As frozen, the invariant fails
for the non-null empty identifier `""`; see the counterexample.) -/
theorem C7_amended (thr : Nat) (ms : List Mention) (i j : Nat) (ci cj : Cluster)
    (hij : i < j)
    (hi : (dedup thr ms)[i]? = some ci) (hj : (dedup thr ms)[j]? = some cj) :
    (∀ id : String, id ≠ "" → ci.orcid = some id → cj.orcid = some id → False) ∧
    (truthy ci.orcid = false → truthy cj.orcid = false →
      dedupScore cj.name ci.name < thr) := by
  have hp := dedup_pairwise thr ms
  obtain ⟨hli, hgi⟩ := List.getElem?_eq_some_iff.mp hi
  obtain ⟨hlj, hgj⟩ := List.getElem?_eq_some_iff.mp hj
  have hrel : clusterRel thr ci cj := by
    have := List.pairwise_iff_get.mp hp ⟨i, hli⟩ ⟨j, hlj⟩ hij
    simpa [List.get_eq_getElem, hgi, hgj] using this
  constructor
  · intro id hid h1 h2
    have htr : truthy ci.orcid = true := by rw [h1]; simp [truthy, hid]
    exact hrel.1 htr (h1.trans h2.symm)
  · exact hrel.2

/-- Claim C7 witness. -/
theorem C7_amended_witness :
    (0 : Nat) < 1 ∧
    (dedup 90 [⟨"ab", none, none, "p1", none⟩, ⟨"xy", none, none, "p2", none⟩])[0]? =
      some ⟨"ab", none, none, "p1", none, [⟨"ab", none, none, "p1", none⟩]⟩ ∧
    (dedup 90 [⟨"ab", none, none, "p1", none⟩, ⟨"xy", none, none, "p2", none⟩])[1]? =
      some ⟨"xy", none, none, "p2", none, [⟨"xy", none, none, "p2", none⟩]⟩ ∧
    ((∀ id : String, id ≠ "" →
        (⟨"ab", none, none, "p1", none, [⟨"ab", none, none, "p1", none⟩]⟩ : Cluster).orcid
          = some id →
        (⟨"xy", none, none, "p2", none, [⟨"xy", none, none, "p2", none⟩]⟩ : Cluster).orcid
          = some id → False) ∧
     (truthy (⟨"ab", none, none, "p1", none, [⟨"ab", none, none, "p1", none⟩]⟩ : Cluster).orcid
        = false →
      truthy (⟨"xy", none, none, "p2", none, [⟨"xy", none, none, "p2", none⟩]⟩ : Cluster).orcid
        = false →
      dedupScore "xy" "ab" < 90)) :=
  ⟨by decide, by decide, by decide,
    C7_amended 90 [⟨"ab", none, none, "p1", none⟩, ⟨"xy", none, none, "p2", none⟩] 0 1
      ⟨"ab", none, none, "p1", none, [⟨"ab", none, none, "p1", none⟩]⟩
      ⟨"xy", none, none, "p2", none, [⟨"xy", none, none, "p2", none⟩]⟩
      (by decide) (by decide) (by decide)⟩

/-- Claim C8: when an identifier-less mention reaches the threshold against
two identifier-less clusters `A` (at position `i`) and `B` (at position
`j`, created later), the mention merges into the first matching cluster in
creation order — a position `k ≤ i` before which no cluster matches — and
cluster `B` is left untouched; no cluster is added and no global best-match
search is performed. -/
theorem C8_first_match (thr : Nat) (cs : List Cluster) (m : Mention) (i j : Nat)
    (A B : Cluster) (hij : i < j)
    (hi : cs[i]? = some A) (hj : cs[j]? = some B)
    (hm : truthy m.orcid = false)
    (hmi : nameMatches thr m A = true)
    (_hmj : nameMatches thr m B = true) :
    ∃ (k : Nat) (C : Cluster), k ≤ i ∧ cs[k]? = some C ∧
      nameMatches thr m C = true ∧
      (∀ l (D : Cluster), l < k → cs[l]? = some D → nameMatches thr m D = false) ∧
      (dedupStep thr cs m).length = cs.length ∧
      (dedupStep thr cs m)[k]? = some (mergeInto m C) ∧
      m ∈ (mergeInto m C).members ∧
      (dedupStep thr cs m)[j]? = some B := by
  have hx : ¬ truthy m.orcid = true := by rw [hm]; simp
  have hAmem : A ∈ cs := by
    obtain ⟨hli, hgi⟩ := List.getElem?_eq_some_iff.mp hi
    exact hgi ▸ List.getElem_mem hli
  have hsome := mergeByName_isSome_of_match hAmem hmi
  obtain ⟨cs', hn⟩ := Option.isSome_iff_exists.mp hsome
  obtain ⟨pre, c, post, hshape, hres, hpre, hc⟩ := mergeByName_spec hn
  subst hshape
  have hstep : dedupStep thr (pre ++ c :: post) m = pre ++ mergeInto m c :: post := by
    rw [dedupStep_name_some hx hn, hres]
  have hki : pre.length ≤ i := by
    by_contra hlt
    push_neg at hlt
    have hA : pre[i]? = some A := by rw [← getElemQ_before pre c post i hlt]; exact hi
    obtain ⟨hli, hgi⟩ := List.getElem?_eq_some_iff.mp hA
    have : A ∈ pre := hgi ▸ List.getElem_mem hli
    rw [hpre A this] at hmi
    cases hmi
  refine ⟨pre.length, c, hki, getElemQ_middle pre c post, hc, ?_, ?_, ?_, ?_, ?_⟩
  · intro l D hl hD
    have hD' : pre[l]? = some D := by rw [← getElemQ_before pre c post l hl]; exact hD
    obtain ⟨hll, hgl⟩ := List.getElem?_eq_some_iff.mp hD'
    exact hpre D (hgl ▸ List.getElem_mem hll)
  · rw [hstep]; simp
  · rw [hstep]; exact getElemQ_middle pre (mergeInto m c) post
  · simp [mergeInto]
  · have hkj : pre.length < j := Nat.lt_of_le_of_lt hki hij
    rw [hstep, getElemQ_after pre (mergeInto m c) post j hkj,
      ← getElemQ_after pre c post j hkj]
    exact hj

/-- Claim C8 witness: two identifier-less clusters both scoring 100 against
the mention "ann bee"; it merges into the earlier one. -/
theorem C8_first_match_witness :
    (0 : Nat) < 1 ∧
    [(⟨"bee ann", none, none, "p1", none, [⟨"bee ann", none, none, "p1", none⟩]⟩ : Cluster),
      ⟨"ann bee", none, none, "p2", none, [⟨"ann bee", none, none, "p2", none⟩]⟩][0]? =
      some ⟨"bee ann", none, none, "p1", none, [⟨"bee ann", none, none, "p1", none⟩]⟩ ∧
    [(⟨"bee ann", none, none, "p1", none, [⟨"bee ann", none, none, "p1", none⟩]⟩ : Cluster),
      ⟨"ann bee", none, none, "p2", none, [⟨"ann bee", none, none, "p2", none⟩]⟩][1]? =
      some ⟨"ann bee", none, none, "p2", none, [⟨"ann bee", none, none, "p2", none⟩]⟩ ∧
    truthy (⟨"ann bee", none, none, "p3", none⟩ : Mention).orcid = false ∧
    nameMatches 90 ⟨"ann bee", none, none, "p3", none⟩
      ⟨"bee ann", none, none, "p1", none, [⟨"bee ann", none, none, "p1", none⟩]⟩ = true ∧
    nameMatches 90 ⟨"ann bee", none, none, "p3", none⟩
      ⟨"ann bee", none, none, "p2", none, [⟨"ann bee", none, none, "p2", none⟩]⟩ = true ∧
    (∃ (k : Nat) (C : Cluster), k ≤ 0 ∧
      [(⟨"bee ann", none, none, "p1", none, [⟨"bee ann", none, none, "p1", none⟩]⟩ : Cluster),
        ⟨"ann bee", none, none, "p2", none, [⟨"ann bee", none, none, "p2", none⟩]⟩][k]? = some C ∧
      nameMatches 90 ⟨"ann bee", none, none, "p3", none⟩ C = true ∧
      (∀ l (D : Cluster), l < k →
        [(⟨"bee ann", none, none, "p1", none, [⟨"bee ann", none, none, "p1", none⟩]⟩ : Cluster),
          ⟨"ann bee", none, none, "p2", none, [⟨"ann bee", none, none, "p2", none⟩]⟩][l]? = some D →
        nameMatches 90 ⟨"ann bee", none, none, "p3", none⟩ D = false) ∧
      (dedupStep 90
        [(⟨"bee ann", none, none, "p1", none, [⟨"bee ann", none, none, "p1", none⟩]⟩ : Cluster),
          ⟨"ann bee", none, none, "p2", none, [⟨"ann bee", none, none, "p2", none⟩]⟩]
        ⟨"ann bee", none, none, "p3", none⟩).length = 2 ∧
      (dedupStep 90
        [(⟨"bee ann", none, none, "p1", none, [⟨"bee ann", none, none, "p1", none⟩]⟩ : Cluster),
          ⟨"ann bee", none, none, "p2", none, [⟨"ann bee", none, none, "p2", none⟩]⟩]
        ⟨"ann bee", none, none, "p3", none⟩)[k]? =
        some (mergeInto ⟨"ann bee", none, none, "p3", none⟩ C) ∧
      (⟨"ann bee", none, none, "p3", none⟩ : Mention) ∈
        (mergeInto ⟨"ann bee", none, none, "p3", none⟩ C).members ∧
      (dedupStep 90
        [(⟨"bee ann", none, none, "p1", none, [⟨"bee ann", none, none, "p1", none⟩]⟩ : Cluster),
          ⟨"ann bee", none, none, "p2", none, [⟨"ann bee", none, none, "p2", none⟩]⟩]
        ⟨"ann bee", none, none, "p3", none⟩)[1]? =
        some ⟨"ann bee", none, none, "p2", none, [⟨"ann bee", none, none, "p2", none⟩]⟩) :=
  ⟨by decide, by decide, by decide, by decide, by decide, by decide,
    C8_first_match 90
      [⟨"bee ann", none, none, "p1", none, [⟨"bee ann", none, none, "p1", none⟩]⟩,
        ⟨"ann bee", none, none, "p2", none, [⟨"ann bee", none, none, "p2", none⟩]⟩]
      ⟨"ann bee", none, none, "p3", none⟩ 0 1
      ⟨"bee ann", none, none, "p1", none, [⟨"bee ann", none, none, "p1", none⟩]⟩
      ⟨"ann bee", none, none, "p2", none, [⟨"ann bee", none, none, "p2", none⟩]⟩
      (by decide) (by decide) (by decide) (by decide) (by decide) (by decide)⟩

/-- Claim C10 (amended): when a mention merges into an existing cluster,
the only stored field that can change is the affiliation, and only from a
falsy value (null — or the empty string, which Python truthiness also
treats as missing, see the counterexample) to the mention's truthy
affiliation; representative name and identifier always remain those of the
cluster's earliest mention. -/
theorem C10_amended :
    (∀ (thr : Nat) (cs : List Cluster) (m : Mention),
      (dedupStep thr cs m).length = cs.length →
      ∃ pre c post, cs = pre ++ c :: post ∧
        dedupStep thr cs m = pre ++ mergeInto m c :: post ∧
        (mergeInto m c).name = c.name ∧
        (mergeInto m c).orcid = c.orcid ∧
        (mergeInto m c).publication_id = c.publication_id ∧
        (mergeInto m c).org = c.org ∧
        (mergeInto m c).members = c.members ++ [m] ∧
        ((mergeInto m c).affiliation = c.affiliation ∨
          (truthy c.affiliation = false ∧ truthy m.affiliation = true ∧
            (mergeInto m c).affiliation = m.affiliation))) ∧
    (∀ (thr : Nat) (ms : List Mention), ∀ c ∈ dedup thr ms,
      ∃ m0 rest, c.members = m0 :: rest ∧ c.name = m0.name ∧ c.orcid = m0.orcid) := by
  constructor
  · intro thr cs m hlen
    rcases dedupStep_shape thr cs m with h | ⟨pre, c, post, h1, h2⟩
    · rw [h] at hlen
      simp at hlen
    · refine ⟨pre, c, post, h1, h2, rfl, rfl, rfl, rfl, rfl, ?_⟩
      by_cases hcond : (truthy m.affiliation && !truthy c.affiliation) = true
      · right
        have hcond' := hcond
        simp only [Bool.and_eq_true] at hcond'
        obtain ⟨h3, h4⟩ := hcond'
        refine ⟨by simpa using h4, h3, ?_⟩
        simp [mergeInto, hcond]
      · left
        simp [mergeInto, hcond]
  · intro thr ms c hc
    exact dedup_rep_first thr ms [] (by simp) c hc

/-- Claim C10 witness: a merge of "ann" into the cluster of "ann", and the
representative-fields property on a two-mention run. -/
theorem C10_amended_witness :
    ((dedupStep 90 [⟨"ann", none, none, "p1", none, [⟨"ann", none, none, "p1", none⟩]⟩]
        ⟨"ann", none, some "X", "p2", none⟩).length =
      [(⟨"ann", none, none, "p1", none, [⟨"ann", none, none, "p1", none⟩]⟩ : Cluster)].length ∧
      (∃ pre c post,
        [(⟨"ann", none, none, "p1", none, [⟨"ann", none, none, "p1", none⟩]⟩ : Cluster)] =
          pre ++ c :: post ∧
        dedupStep 90 [⟨"ann", none, none, "p1", none, [⟨"ann", none, none, "p1", none⟩]⟩]
          ⟨"ann", none, some "X", "p2", none⟩ =
          pre ++ mergeInto ⟨"ann", none, some "X", "p2", none⟩ c :: post ∧
        (mergeInto ⟨"ann", none, some "X", "p2", none⟩ c).name = c.name ∧
        (mergeInto ⟨"ann", none, some "X", "p2", none⟩ c).orcid = c.orcid ∧
        (mergeInto ⟨"ann", none, some "X", "p2", none⟩ c).publication_id = c.publication_id ∧
        (mergeInto ⟨"ann", none, some "X", "p2", none⟩ c).org = c.org ∧
        (mergeInto ⟨"ann", none, some "X", "p2", none⟩ c).members = c.members ++
          [⟨"ann", none, some "X", "p2", none⟩] ∧
        ((mergeInto ⟨"ann", none, some "X", "p2", none⟩ c).affiliation = c.affiliation ∨
          (truthy c.affiliation = false ∧
            truthy (⟨"ann", none, some "X", "p2", none⟩ : Mention).affiliation = true ∧
            (mergeInto ⟨"ann", none, some "X", "p2", none⟩ c).affiliation =
              (⟨"ann", none, some "X", "p2", none⟩ : Mention).affiliation)))) ∧
    (∀ c ∈ dedup 90 [⟨"Jane Doe", none, none, "p1", none⟩, ⟨"Doe, Jane", none, none, "p2", none⟩],
      ∃ m0 rest, c.members = m0 :: rest ∧ c.name = m0.name ∧ c.orcid = m0.orcid) :=
  ⟨⟨by decide, C10_amended.1 90
      [⟨"ann", none, none, "p1", none, [⟨"ann", none, none, "p1", none⟩]⟩]
      ⟨"ann", none, some "X", "p2", none⟩ (by decide)⟩,
    C10_amended.2 90 [⟨"Jane Doe", none, none, "p1", none⟩, ⟨"Doe, Jane", none, none, "p2", none⟩]⟩

/-! ## Organization partition (C6) -/

theorem addToGroups_org :
    ∀ (gs : List (Option String × List Mention)) (m : Mention),
      (∀ g ∈ gs, ∀ m' ∈ g.2, m'.org = g.1) →
      ∀ g ∈ addToGroups gs m, ∀ m' ∈ g.2, m'.org = g.1 := by
  intro gs
  induction gs with
  | nil =>
    intro m _ g hg m' hm'
    have : g = (m.org, [m]) := by simpa [addToGroups] using hg
    subst this
    have : m' = m := by simpa using hm'
    subst this; rfl
  | cons p t ih =>
    intro m hinv g hg m' hm'
    obtain ⟨o, ms⟩ := p
    simp only [addToGroups] at hg
    by_cases ho : (o == m.org) = true
    · rw [if_pos ho] at hg
      rcases List.mem_cons.mp hg with h1 | h1
      · subst h1
        have hm'' : m' ∈ ms ++ [m] := hm'
        rcases List.mem_append.mp hm'' with h2 | h2
        · exact hinv (o, ms) (List.mem_cons_self _ _) m' h2
        · have : m' = m := by simpa using h2
          subst this
          exact (eq_of_beq ho).symm
      · exact hinv g (List.mem_cons_of_mem _ h1) m' hm'
    · rw [if_neg ho] at hg
      rcases List.mem_cons.mp hg with h1 | h1
      · subst h1
        exact hinv (o, ms) (List.mem_cons_self _ _) m' hm'
      · exact ih m (fun g' hg' => hinv g' (List.mem_cons_of_mem _ hg')) g h1 m' hm'

theorem groupsOf_org_aux :
    ∀ (l : List Mention) (gs : List (Option String × List Mention)),
      (∀ g ∈ gs, ∀ m ∈ g.2, m.org = g.1) →
      ∀ g ∈ l.foldl addToGroups gs, ∀ m ∈ g.2, m.org = g.1 := by
  intro l
  induction l with
  | nil => intro gs h; simpa using h
  | cons m0 rest ih =>
    intro gs h
    rw [List.foldl_cons]
    exact ih _ (addToGroups_org gs m0 h)

theorem groupsOf_org (pubs : List Pub) :
    ∀ g ∈ groupsOf pubs, ∀ m ∈ g.2, m.org = g.1 :=
  groupsOf_org_aux (allMentions pubs) [] (by simp)

/-- Claim C6: any two mentions placed in the same cluster by the
organization-partitioned disambiguation share the same organization
context, which is the partition key of that cluster — so two identifier-less
mentions with identical names but different organization contexts are never
placed in one cluster, and clusters never merge across organization
boundaries. -/
theorem C6_no_cross_org (thr : Nat) (pubs : List Pub) (o : Option String) (c : Cluster)
    (m1 m2 : Mention) (hc : (o, c) ∈ mergedOf thr pubs)
    (h1 : m1 ∈ c.members) (h2 : m2 ∈ c.members) :
    m1.org = m2.org ∧ m1.org = o := by
  obtain ⟨g, hg, hcm⟩ := List.mem_flatMap.mp hc
  obtain ⟨c', hc', heq⟩ := List.mem_map.mp hcm
  injection heq with ho hcc
  subst ho; subst hcc
  have hmem : ∀ m ∈ c'.members, m.org = g.1 := by
    have hin : ∀ m ∈ g.2, m.org = g.1 := groupsOf_org pubs g hg
    exact dedup_members_pred thr (fun m => m.org = g.1) g.2 [] (by simp) hin c' hc'
  exact ⟨(hmem m1 h1).trans (hmem m2 h2).symm, hmem m1 h1⟩

/-- Claim C6 witness: two publications in different organizations with the
same author name produce two singleton clusters; each cluster's members
carry the cluster's organization. -/
theorem C6_no_cross_org_witness :
    ((some "oA", (⟨"Jane Doe", none, none, "p1", some "oA",
        [⟨"Jane Doe", none, none, "p1", some "oA"⟩]⟩ : Cluster)) ∈
      mergedOf 90 [⟨"p1", some "oA", some [⟨"Jane Doe", none, none⟩]⟩,
                   ⟨"p2", some "oB", some [⟨"Jane Doe", none, none⟩]⟩]) ∧
    ((⟨"Jane Doe", none, none, "p1", some "oA"⟩ : Mention) ∈
      (⟨"Jane Doe", none, none, "p1", some "oA",
        [⟨"Jane Doe", none, none, "p1", some "oA"⟩]⟩ : Cluster).members) ∧
    ((⟨"Jane Doe", none, none, "p1", some "oA"⟩ : Mention).org =
        (⟨"Jane Doe", none, none, "p1", some "oA"⟩ : Mention).org ∧
      (⟨"Jane Doe", none, none, "p1", some "oA"⟩ : Mention).org = some "oA") :=
  ⟨by decide, by decide,
    C6_no_cross_org 90
      [⟨"p1", some "oA", some [⟨"Jane Doe", none, none⟩]⟩,
       ⟨"p2", some "oB", some [⟨"Jane Doe", none, none⟩]⟩]
      (some "oA")
      ⟨"Jane Doe", none, none, "p1", some "oA", [⟨"Jane Doe", none, none, "p1", some "oA"⟩]⟩
      ⟨"Jane Doe", none, none, "p1", some "oA"⟩
      ⟨"Jane Doe", none, none, "p1", some "oA"⟩
      (by decide) (by decide) (by decide)⟩

/-- Claim C5 (amended): the Authorship Linker resolves a mention by exactly
the same two-tier lookup as the Profile Upsert Manager — identifier first
(globally), else case-insensitive name containment plus organization
context — for every mention whose publication carries a truthy organization
context.  When the organization is null (or empty), the linker skips the
name fallback entirely while the upsert lookup still searches the
null-organization bucket, so the equivalence fails there (see the
counterexample). -/
theorem C5_amended (rs : List Researcher) (org : Option String) (nm : String)
    (x : Option String) (h : truthy org = true) :
    linkerResolve rs org nm x = upsertResolve rs org nm x := by
  unfold linkerResolve upsertResolve
  cases hfo : (if truthy x then rs.find? (rMatchOrcid x) else none) with
  | some r => rfl
  | none => rw [if_pos h]

/-- Claim C5 witness. -/
theorem C5_amended_witness :
    truthy (some "o1") = true ∧
    linkerResolve [⟨"a", "Carol", some "X", some "o1"⟩, ⟨"b", "Carol Brown", none, some "o1"⟩]
        (some "o1") "Carol" none =
      upsertResolve [⟨"a", "Carol", some "X", some "o1"⟩, ⟨"b", "Carol Brown", none, some "o1"⟩]
        (some "o1") "Carol" none :=
  ⟨by decide,
    C5_amended [⟨"a", "Carol", some "X", some "o1"⟩, ⟨"b", "Carol Brown", none, some "o1"⟩]
      (some "o1") "Carol" none (by decide)⟩

/-! ## Researcher-table evolution -/

theorem rEvol_refl (r : Researcher) : rEvol r r := ⟨rfl, rfl, rfl, Or.inl rfl⟩

theorem rEvol_trans {a b c : Researcher} (h1 : rEvol a b) (h2 : rEvol b c) : rEvol a c := by
  obtain ⟨i1, n1, o1, x1⟩ := h1
  obtain ⟨i2, n2, o2, x2⟩ := h2
  refine ⟨i2.trans i1, n2.trans n1, o2.trans o1, ?_⟩
  rcases x1 with x1 | ⟨f1, t1⟩
  · rcases x2 with x2 | ⟨f2, t2⟩
    · exact Or.inl (x2.trans x1)
    · exact Or.inr ⟨by rw [← x1]; exact f2, t2⟩
  · rcases x2 with x2 | ⟨f2, t2⟩
    · exact Or.inr ⟨f1, by rw [x2]; exact t1⟩
    · rw [t1] at f2; cases f2

theorem evol_refl : ∀ rs : List Researcher, Evol rs rs := by
  intro rs
  induction rs with
  | nil => exact Evol.nil []
  | cons a t ih => exact Evol.cons (rEvol_refl a) ih

theorem evol_append (rs ext : List Researcher) : Evol rs (rs ++ ext) := by
  induction rs with
  | nil => exact Evol.nil ext
  | cons a t ih => exact Evol.cons (rEvol_refl a) ih

theorem evol_trans : ∀ {a b c : List Researcher}, Evol a b → Evol b c → Evol a c := by
  intro a b c h1
  induction h1 generalizing c with
  | nil ext => intro _; exact Evol.nil c
  | cons hab hrest ih =>
    intro h2
    cases h2 with
    | cons hbc hrest' => exact Evol.cons (rEvol_trans hab hbc) (ih hrest')

theorem evol_middle {pre post : List Researcher} {r r' : Researcher} (h : rEvol r r') :
    Evol (pre ++ r :: post) (pre ++ r' :: post) := by
  induction pre with
  | nil => exact Evol.cons h (evol_refl post)
  | cons a t ih => exact Evol.cons (rEvol_refl a) ih

theorem evol_mem_exists {P : Researcher → Prop} (hP : ∀ a b, rEvol a b → P a → P b) :
    ∀ {rs rs' : List Researcher}, Evol rs rs' → (∃ r ∈ rs, P r) → ∃ r' ∈ rs', P r' := by
  intro rs rs' h
  induction h with
  | nil ext => rintro ⟨r, hr, _⟩; cases hr
  | cons hab hrest ih =>
    rintro ⟨r, hr, hPr⟩
    rcases List.mem_cons.mp hr with h1 | h1
    · subst h1
      exact ⟨_, List.mem_cons_self _ _, hP _ _ hab hPr⟩
    · obtain ⟨r', hr', hPr'⟩ := ih ⟨r, h1, hPr⟩
      exact ⟨r', List.mem_cons_of_mem _ hr', hPr'⟩

theorem evol_find? {q : Researcher → Bool} (hq : ∀ a b, rEvol a b → q b = q a) :
    ∀ {rs rs' : List Researcher}, Evol rs rs' → ∀ {r : Researcher}, rs.find? q = some r →
      ∃ r', rs'.find? q = some r' ∧ rEvol r r' := by
  intro rs rs' h
  induction h with
  | nil ext => intro r hr; simp at hr
  | @cons a b old new hab hrest ih =>
    intro r hr
    by_cases hqa : q a = true
    · rw [List.find?_cons_of_pos _ hqa] at hr
      cases hr
      have hqb : q b = true := by rw [hq a b hab]; exact hqa
      exact ⟨b, List.find?_cons_of_pos _ hqb, hab⟩
    · rw [List.find?_cons_of_neg _ hqa] at hr
      have hqb : ¬ q b = true := by rw [hq a b hab]; exact hqa
      obtain ⟨r', hr', he⟩ := ih hr
      exact ⟨r', by rw [List.find?_cons_of_neg _ hqb]; exact hr', he⟩

theorem rEvol_matchName (org : Option String) (nm : String) :
    ∀ a b, rEvol a b → rMatchName org nm b = rMatchName org nm a := by
  intro a b h
  obtain ⟨_, h2, h3, _⟩ := h
  unfold rMatchName
  rw [h2, h3]

theorem rEvol_orcid_keep {a b : Researcher} (h : rEvol a b)
    (ht : truthy a.orcid_id = true) : b.orcid_id = a.orcid_id := by
  rcases h.2.2.2 with h1 | ⟨h1, _⟩
  · exact h1
  · rw [ht] at h1; cases h1

theorem resolvedOK_mono {rs rs' : List Researcher} (he : Evol rs rs')
    {org : Option String} {nm0 : String} {x : Option String}
    (h : resolvedOK rs org nm0 x) : resolvedOK rs' org nm0 x := by
  unfold resolvedOK at h ⊢
  by_cases hx : truthy x = true
  · rw [if_pos hx] at h ⊢
    rcases h with h | h
    · left
      refine evol_mem_exists ?_ he h
      intro a b hab ha
      have hb : b.orcid_id = a.orcid_id := rEvol_orcid_keep hab (by rw [ha]; exact hx)
      rw [hb, ha]
    · obtain ⟨r, hr, htr⟩ := h
      obtain ⟨r', hr', hrel⟩ := evol_find? (rEvol_matchName org (pyStrip nm0)) he hr
      right
      refine ⟨r', hr', ?_⟩
      rw [rEvol_orcid_keep hrel htr]
      exact htr
  · rw [if_neg hx] at h ⊢
    obtain ⟨r, hr⟩ := Option.isSome_iff_exists.mp h
    obtain ⟨r', hr', _⟩ := evol_find? (rEvol_matchName org (pyStrip nm0)) he hr
    rw [hr']
    rfl

/-! ## Upsert characterisation -/

theorem upsert_eq_orcid_found {rs : List Researcher} {org : Option String} {nm0 : String}
    {x : Option String} {r : Researcher}
    (h : (if truthy x then rs.find? (rMatchOrcid x) else none) = some r) :
    upsert rs org nm0 x = (rs, r.id, false) := by
  unfold upsert
  rw [h]

theorem upsert_eq_name_found {rs rs' : List Researcher} {org : Option String} {nm0 : String}
    {x : Option String} {i : String}
    (h1 : (if truthy x then rs.find? (rMatchOrcid x) else none) = none)
    (h2 : nameUpsertGo (truthy x) x org (pyStrip nm0) rs = some (rs', i)) :
    upsert rs org nm0 x = (rs', i, false) := by
  unfold upsert
  simp only [h1, h2]

theorem upsert_eq_create {rs : List Researcher} {org : Option String} {nm0 : String}
    {x : Option String}
    (h1 : (if truthy x then rs.find? (rMatchOrcid x) else none) = none)
    (h2 : nameUpsertGo (truthy x) x org (pyStrip nm0) rs = none) :
    upsert rs org nm0 x =
      (rs ++ [⟨upsertNewId org (pyStrip nm0) x, pyStrip nm0, x, org⟩],
        upsertNewId org (pyStrip nm0) x, true) := by
  unfold upsert
  simp only [h1, h2]

theorem nameUpsertGo_none {d : Bool} {x org : Option String} {nm : String} :
    ∀ {rs : List Researcher}, nameUpsertGo d x org nm rs = none →
      ∀ r ∈ rs, rMatchName org nm r = false := by
  intro rs
  induction rs with
  | nil => intro _ r hr; cases hr
  | cons a t ih =>
    intro h r hr
    simp only [nameUpsertGo] at h
    by_cases ha : rMatchName org nm a = true
    · rw [if_pos ha] at h; cases h
    · rw [if_neg ha, Option.map_eq_none'] at h
      rcases List.mem_cons.mp hr with h1 | h1
      · subst h1; exact Bool.eq_false_iff.mpr ha
      · exact ih h r h1

theorem nameUpsertGo_spec {d : Bool} {x org : Option String} {nm : String} :
    ∀ {rs : List Researcher} {p : List Researcher × String},
      nameUpsertGo d x org nm rs = some p →
      ∃ pre r post, rs = pre ++ r :: post ∧ (∀ y ∈ pre, rMatchName org nm y = false) ∧
        rMatchName org nm r = true ∧ p = (pre ++ fillOrcid d x r :: post, r.id) := by
  intro rs
  induction rs with
  | nil => intro p h; cases h
  | cons a t ih =>
    intro p h
    simp only [nameUpsertGo] at h
    by_cases ha : rMatchName org nm a = true
    · rw [if_pos ha] at h
      cases h
      exact ⟨[], a, t, rfl, by simp, ha, rfl⟩
    · rw [if_neg ha, Option.map_eq_some'] at h
      obtain ⟨p', hp', rfl⟩ := h
      obtain ⟨pre, r, post, rfl, hpre, hr, rfl⟩ := ih hp'
      refine ⟨a :: pre, r, post, rfl, ?_, hr, rfl⟩
      intro y hy
      rcases List.mem_cons.mp hy with h1 | h1
      · subst h1; exact Bool.eq_false_iff.mpr ha
      · exact hpre y h1

theorem nameUpsertGo_of_find? {d : Bool} {x org : Option String} {nm : String} :
    ∀ {rs : List Researcher} {r : Researcher}, rs.find? (rMatchName org nm) = some r →
      fillOrcid d x r = r → nameUpsertGo d x org nm rs = some (rs, r.id) := by
  intro rs
  induction rs with
  | nil => intro r h; simp at h
  | cons a t ih =>
    intro r h hkeep
    simp only [nameUpsertGo]
    by_cases ha : rMatchName org nm a = true
    · rw [List.find?_cons_of_pos _ ha] at h
      cases h
      rw [if_pos ha, hkeep]
    · rw [List.find?_cons_of_neg _ ha] at h
      rw [if_neg ha, ih h hkeep]
      rfl

theorem fillOrcid_of_truthy (d : Bool) (x : Option String) (r : Researcher)
    (h : truthy r.orcid_id = true) : fillOrcid d x r = r := by
  unfold fillOrcid
  rw [if_neg]
  simp [h]

theorem rEvol_fill (x : Option String) (r : Researcher) :
    rEvol r (fillOrcid (truthy x) x r) := by
  unfold fillOrcid
  by_cases h : (truthy x && !truthy r.orcid_id) = true
  · rw [if_pos h]
    have h' := h
    simp only [Bool.and_eq_true] at h'
    exact ⟨rfl, rfl, rfl, Or.inr ⟨by simpa using h'.2, h'.1⟩⟩
  · rw [if_neg h]
    exact rEvol_refl r

theorem upsert_evol (rs : List Researcher) (org : Option String) (nm0 : String)
    (x : Option String) : Evol rs (upsert rs org nm0 x).1 := by
  cases hfo : (if truthy x then rs.find? (rMatchOrcid x) else none) with
  | some r =>
    rw [upsert_eq_orcid_found hfo]
    exact evol_refl rs
  | none =>
    cases hgo : nameUpsertGo (truthy x) x org (pyStrip nm0) rs with
    | some p =>
      obtain ⟨rs', i⟩ := p
      rw [upsert_eq_name_found hfo hgo]
      obtain ⟨pre, r, post, hshape, hpre, hr, hp⟩ := nameUpsertGo_spec hgo
      injection hp with hp1 hp2
      subst hshape; subst hp1
      exact evol_middle (rEvol_fill x r)
    | none =>
      rw [upsert_eq_create hfo hgo]
      exact evol_append rs _

theorem upsert_post (rs : List Researcher) (org : Option String) (nm0 : String)
    (x : Option String) : resolvedOK (upsert rs org nm0 x).1 org nm0 x := by
  unfold resolvedOK
  by_cases hx : truthy x = true
  · rw [if_pos hx]
    cases hfo : (if truthy x then rs.find? (rMatchOrcid x) else none) with
    | some r =>
      rw [upsert_eq_orcid_found hfo]
      rw [if_pos hx] at hfo
      obtain ⟨pre, post, hshape, _, hq⟩ := find?_shape hfo
      left
      refine ⟨r, ?_, eq_of_beq hq⟩
      rw [hshape]
      exact List.mem_append_right _ (List.mem_cons_self _ _)
    | none =>
      cases hgo : nameUpsertGo (truthy x) x org (pyStrip nm0) rs with
      | some p =>
        obtain ⟨rs', i⟩ := p
        rw [upsert_eq_name_found hfo hgo]
        obtain ⟨pre, r, post, hshape, hpre, hr, hp⟩ := nameUpsertGo_spec hgo
        injection hp with hp1 hp2
        subst hp1
        by_cases htr : truthy r.orcid_id = true
        · right
          rw [fillOrcid_of_truthy _ _ _ htr]
          have hpre' : ∀ y ∈ pre, rMatchName org (pyStrip nm0) y = false := hpre
          exact ⟨r, find?_of_shape pre r post hpre' hr, htr⟩
        · left
          have hfill : fillOrcid (truthy x) x r = ⟨r.id, r.full_name, x, r.organization_id⟩ := by
            unfold fillOrcid
            rw [if_pos]
            simp [hx, htr]
          refine ⟨fillOrcid (truthy x) x r,
            List.mem_append_right _ (List.mem_cons_self _ _), ?_⟩
          rw [hfill]
      | none =>
        rw [upsert_eq_create hfo hgo]
        left
        exact ⟨⟨upsertNewId org (pyStrip nm0) x, pyStrip nm0, x, org⟩,
          List.mem_append_right _ (List.mem_cons_self _ _), rfl⟩
  · rw [if_neg hx]
    have hfo : (if truthy x then rs.find? (rMatchOrcid x) else none) = none := by
      rw [if_neg hx]
    cases hgo : nameUpsertGo (truthy x) x org (pyStrip nm0) rs with
    | some p =>
      obtain ⟨rs', i⟩ := p
      rw [upsert_eq_name_found hfo hgo]
      obtain ⟨pre, r, post, hshape, hpre, hr, hp⟩ := nameUpsertGo_spec hgo
      injection hp with hp1 hp2
      subst hp1
      rw [find?_of_shape pre (fillOrcid (truthy x) x r) post hpre
        (by rw [rEvol_matchName org (pyStrip nm0) r _ (rEvol_fill x r)]; exact hr)]
      rfl
    | none =>
      rw [upsert_eq_create hfo hgo]
      have hnew : rMatchName org (pyStrip nm0)
          ⟨upsertNewId org (pyStrip nm0) x, pyStrip nm0, x, org⟩ = true := by
        unfold rMatchName
        rw [ilikeContains_self]
        simp
      rw [find?_of_shape rs _ [] (nameUpsertGo_none hgo) hnew]
      rfl

theorem upsert_stable {rs : List Researcher} {org : Option String} {nm0 : String}
    {x : Option String} (h : resolvedOK rs org nm0 x) :
    (upsert rs org nm0 x).1 = rs ∧ (upsert rs org nm0 x).2.2 = false := by
  unfold resolvedOK at h
  by_cases hx : truthy x = true
  · rw [if_pos hx] at h
    cases hfo : rs.find? (rMatchOrcid x) with
    | some r2 =>
      rw [upsert_eq_orcid_found (by rw [if_pos hx]; exact hfo)]
      exact ⟨rfl, rfl⟩
    | none =>
      rcases h with ⟨r, hr, ho⟩ | ⟨r, hr, htr⟩
      · have : (rs.find? (rMatchOrcid x)).isSome = true :=
          find?_isSome_of_mem hr (by unfold rMatchOrcid; exact beq_iff_eq.mpr ho)
        rw [hfo] at this
        cases this
      · have hgo := nameUpsertGo_of_find? hr (fillOrcid_of_truthy (truthy x) x r htr)
        rw [upsert_eq_name_found (by rw [if_pos hx]; exact hfo) hgo]
        exact ⟨rfl, rfl⟩
  · rw [if_neg hx] at h
    obtain ⟨r, hr⟩ := Option.isSome_iff_exists.mp h
    have hx' : truthy x = false := by simpa using hx
    have hkeep : fillOrcid (truthy x) x r = r := by
      unfold fillOrcid
      rw [if_neg]
      simp [hx']
    have hgo := nameUpsertGo_of_find? hr hkeep
    rw [upsert_eq_name_found (by rw [if_neg hx]) hgo]
    exact ⟨rfl, rfl⟩

/-! ## Upsert phase: stability across a second run -/

theorem upsertAll_evol : ∀ (l : List (Option String × Cluster)) (rs : List Researcher),
    Evol rs (upsertAll rs l).1 := by
  intro l
  induction l with
  | nil => intro rs; exact evol_refl rs
  | cons oc rest ih =>
    intro rs
    simp only [upsertAll]
    exact evol_trans (upsert_evol rs oc.1 oc.2.name oc.2.orcid) (ih _)

theorem upsertAll_post : ∀ (l : List (Option String × Cluster)) (rs : List Researcher),
    ∀ oc ∈ l, resolvedOK (upsertAll rs l).1 oc.1 oc.2.name oc.2.orcid := by
  intro l
  induction l with
  | nil => intro rs oc h; cases h
  | cons oc0 rest ih =>
    intro rs oc hm
    simp only [upsertAll]
    rcases List.mem_cons.mp hm with h1 | h1
    · subst h1
      exact resolvedOK_mono (upsertAll_evol rest _)
        (upsert_post rs oc.1 oc.2.name oc.2.orcid)
    · exact ih _ oc h1

theorem upsertAll_stable : ∀ (l : List (Option String × Cluster)) (rs : List Researcher),
    (∀ oc ∈ l, resolvedOK rs oc.1 oc.2.name oc.2.orcid) →
    (upsertAll rs l).1 = rs ∧ (upsertAll rs l).2.2 = 0 := by
  intro l
  induction l with
  | nil => intro rs _; exact ⟨rfl, rfl⟩
  | cons oc0 rest ih =>
    intro rs h
    obtain ⟨hu1, hu2⟩ := upsert_stable (h oc0 (List.mem_cons_self _ _))
    simp only [upsertAll]
    rw [hu1, hu2]
    obtain ⟨hw1, hw2⟩ := ih rs (fun oc hoc => h oc (List.mem_cons_of_mem _ hoc))
    rw [hw1, hw2]
    exact ⟨rfl, rfl⟩

theorem upsertAll_idem (rs : List Researcher) (l : List (Option String × Cluster)) :
    (upsertAll (upsertAll rs l).1 l).1 = (upsertAll rs l).1 ∧
    (upsertAll (upsertAll rs l).1 l).2.2 = 0 :=
  upsertAll_stable l (upsertAll rs l).1 (fun oc hoc => upsertAll_post l rs oc hoc)

/-! ## Linker characterisation -/

theorem linkEntry_eq_none {rs : List Researcher} {p : Pub}
    {st : List (String × String) × Nat} {e : AuthorEntry}
    (h : linkerResolve rs p.organization_id e.name e.orcid = none) :
    linkEntry rs p st e = st := by
  unfold linkEntry
  rw [h]

theorem linkEntry_eq_some {rs : List Researcher} {p : Pub}
    {st : List (String × String) × Nat} {e : AuthorEntry} {r : Researcher}
    (h : linkerResolve rs p.organization_id e.name e.orcid = some r) :
    linkEntry rs p st e =
      if (p.id, r.id) ∈ st.1 then st else (st.1 ++ [(p.id, r.id)], st.2 + 1) := by
  unfold linkEntry
  rw [h]

theorem linkEntry_spec (rs : List Researcher) (p : Pub) (st : List (String × String) × Nat)
    (e : AuthorEntry) :
    ∃ t, linkEntry rs p st e = (st.1 ++ t, st.2 + t.length) ∧
      ∀ q ∈ t, ∃ r, linkerResolve rs p.organization_id e.name e.orcid = some r ∧
        q = (p.id, r.id) := by
  cases hres : linkerResolve rs p.organization_id e.name e.orcid with
  | none => exact ⟨[], by rw [linkEntry_eq_none hres]; simp, by simp⟩
  | some r =>
    rw [linkEntry_eq_some hres]
    by_cases hc : (p.id, r.id) ∈ st.1
    · rw [if_pos hc]
      exact ⟨[], by simp, by simp⟩
    · rw [if_neg hc]
      refine ⟨[(p.id, r.id)], rfl, ?_⟩
      intro q hq
      have : q = (p.id, r.id) := by simpa using hq
      exact ⟨r, rfl, this⟩

theorem linkEntries_spec (rs : List Researcher) (p : Pub) :
    ∀ (es : List AuthorEntry) (st : List (String × String) × Nat),
      ∃ t, linkEntries rs p st es = (st.1 ++ t, st.2 + t.length) ∧
        ∀ q ∈ t, ∃ e ∈ es, ∃ r,
          linkerResolve rs p.organization_id e.name e.orcid = some r ∧ q = (p.id, r.id) := by
  intro es
  induction es with
  | nil => intro st; exact ⟨[], by simp [linkEntries], by simp⟩
  | cons e0 rest ih =>
    intro st
    obtain ⟨t1, h1, hp1⟩ := linkEntry_spec rs p st e0
    obtain ⟨t2, h2, hp2⟩ := ih (linkEntry rs p st e0)
    refine ⟨t1 ++ t2, ?_, ?_⟩
    · show linkEntries rs p (linkEntry rs p st e0) rest = _
      rw [h2, h1]
      simp [Nat.add_assoc]
    · intro q hq
      rcases List.mem_append.mp hq with h | h
      · obtain ⟨r, hr, hq'⟩ := hp1 q h
        exact ⟨e0, List.mem_cons_self _ _, r, hr, hq'⟩
      · obtain ⟨e, he, r, hr, hq'⟩ := hp2 q h
        exact ⟨e, List.mem_cons_of_mem _ he, r, hr, hq'⟩

theorem linkPub_spec (rs : List Researcher) (st : List (String × String) × Nat) (p : Pub) :
    ∃ t, linkPub rs st p = (st.1 ++ t, st.2 + t.length) ∧
      ∀ q ∈ t, ∃ es, p.authors = some es ∧ ∃ e ∈ es, ∃ r,
        linkerResolve rs p.organization_id e.name e.orcid = some r ∧ q = (p.id, r.id) := by
  unfold linkPub
  cases hA : p.authors with
  | none => exact ⟨[], by simp, by simp⟩
  | some es =>
    obtain ⟨t, h, hp⟩ := linkEntries_spec rs p es st
    exact ⟨t, h, fun q hq => ⟨es, rfl, hp q hq⟩⟩

theorem linkAllGo_spec (rs : List Researcher) :
    ∀ (pubs : List Pub) (st : List (String × String) × Nat),
      ∃ t, linkAllGo rs st pubs = (st.1 ++ t, st.2 + t.length) ∧
        ∀ q ∈ t, ∃ p ∈ pubs, ∃ es, p.authors = some es ∧ ∃ e ∈ es, ∃ r,
          linkerResolve rs p.organization_id e.name e.orcid = some r ∧ q = (p.id, r.id) := by
  intro pubs
  induction pubs with
  | nil => intro st; exact ⟨[], by simp [linkAllGo], by simp⟩
  | cons p0 rest ih =>
    intro st
    obtain ⟨t1, h1, hp1⟩ := linkPub_spec rs st p0
    obtain ⟨t2, h2, hp2⟩ := ih (linkPub rs st p0)
    refine ⟨t1 ++ t2, ?_, ?_⟩
    · show linkAllGo rs (linkPub rs st p0) rest = _
      rw [h2, h1]
      simp [Nat.add_assoc]
    · intro q hq
      rcases List.mem_append.mp hq with h | h
      · obtain ⟨es, hes, e, he, r, hr, hq'⟩ := hp1 q h
        exact ⟨p0, List.mem_cons_self _ _, es, hes, e, he, r, hr, hq'⟩
      · obtain ⟨p, hp, es, hes, e, he, r, hr, hq'⟩ := hp2 q h
        exact ⟨p, List.mem_cons_of_mem _ hp, es, hes, e, he, r, hr, hq'⟩

/-- Claim C9 (amended): the linker never halts on an unresolvable mention —
it is a total function of the store — and reports only the number of links
created: its result is the link table extended by exactly the resolved,
previously unlinked pairs, with the `linked` counter equal to the number of
appended links; unresolvable mentions contribute nothing to the result and,
contrary to the claim as frozen, are not counted anywhere (the code's local
`errors` counter is touched only by `except` blocks and is dropped before
the stats are returned, researcher_enricher.py:316-321; see the
counterexample). -/
theorem C9_amended (rs : List Researcher) (pubs : List Pub)
    (links0 : List (String × String)) :
    ∃ t, (linkAll rs pubs links0).1 = links0 ++ t ∧
      (linkAll rs pubs links0).2 = t.length ∧
      ∀ q ∈ t, ∃ p ∈ pubs, ∃ es, p.authors = some es ∧ ∃ e ∈ es, ∃ r,
        linkerResolve rs p.organization_id e.name e.orcid = some r ∧ q = (p.id, r.id) := by
  obtain ⟨t, h, hp⟩ := linkAllGo_spec rs pubs (links0, 0)
  refine ⟨t, ?_, ?_, hp⟩
  · show (linkAllGo rs (links0, 0) pubs).1 = links0 ++ t
    rw [h]
  · show (linkAllGo rs (links0, 0) pubs).2 = t.length
    rw [h]
    simp

/-! ## Linker completeness and stability -/

theorem linkEntry_mem (rs : List Researcher) (p : Pub) (st : List (String × String) × Nat)
    (e : AuthorEntry) {q : String × String} (h : q ∈ st.1) : q ∈ (linkEntry rs p st e).1 := by
  obtain ⟨t, ht, _⟩ := linkEntry_spec rs p st e
  rw [ht]
  exact List.mem_append_left _ h

theorem linkEntries_mem (rs : List Researcher) (p : Pub) (es : List AuthorEntry)
    (st : List (String × String) × Nat) {q : String × String} (h : q ∈ st.1) :
    q ∈ (linkEntries rs p st es).1 := by
  obtain ⟨t, ht, _⟩ := linkEntries_spec rs p es st
  rw [ht]
  exact List.mem_append_left _ h

theorem linkPub_mem (rs : List Researcher) (st : List (String × String) × Nat) (p : Pub)
    {q : String × String} (h : q ∈ st.1) : q ∈ (linkPub rs st p).1 := by
  obtain ⟨t, ht, _⟩ := linkPub_spec rs st p
  rw [ht]
  exact List.mem_append_left _ h

theorem linkAllGo_mem (rs : List Researcher) (pubs : List Pub)
    (st : List (String × String) × Nat) {q : String × String} (h : q ∈ st.1) :
    q ∈ (linkAllGo rs st pubs).1 := by
  obtain ⟨t, ht, _⟩ := linkAllGo_spec rs pubs st
  rw [ht]
  exact List.mem_append_left _ h

theorem linkEntry_complete (rs : List Researcher) (p : Pub)
    (st : List (String × String) × Nat) (e : AuthorEntry) (r : Researcher)
    (h : linkerResolve rs p.organization_id e.name e.orcid = some r) :
    (p.id, r.id) ∈ (linkEntry rs p st e).1 := by
  rw [linkEntry_eq_some h]
  by_cases hc : (p.id, r.id) ∈ st.1
  · rw [if_pos hc]; exact hc
  · rw [if_neg hc]; simp

theorem linkEntries_complete (rs : List Researcher) (p : Pub) :
    ∀ (es : List AuthorEntry) (st : List (String × String) × Nat) (e : AuthorEntry),
      e ∈ es → ∀ r, linkerResolve rs p.organization_id e.name e.orcid = some r →
      (p.id, r.id) ∈ (linkEntries rs p st es).1 := by
  intro es
  induction es with
  | nil => intro st e he; cases he
  | cons e0 rest ih =>
    intro st e he r hr
    show (p.id, r.id) ∈ (linkEntries rs p (linkEntry rs p st e0) rest).1
    rcases List.mem_cons.mp he with h1 | h1
    · subst h1
      exact linkEntries_mem rs p rest _ (linkEntry_complete rs p st e r hr)
    · exact ih _ e h1 r hr

theorem linkPub_complete (rs : List Researcher) (st : List (String × String) × Nat)
    (p : Pub) (es : List AuthorEntry) (hes : p.authors = some es) (e : AuthorEntry)
    (he : e ∈ es) (r : Researcher)
    (hr : linkerResolve rs p.organization_id e.name e.orcid = some r) :
    (p.id, r.id) ∈ (linkPub rs st p).1 := by
  unfold linkPub
  rw [hes]
  exact linkEntries_complete rs p es st e he r hr

theorem linkAllGo_complete (rs : List Researcher) :
    ∀ (pubs : List Pub) (st : List (String × String) × Nat) (p : Pub), p ∈ pubs →
      ∀ (es : List AuthorEntry), p.authors = some es → ∀ e ∈ es,
      ∀ r, linkerResolve rs p.organization_id e.name e.orcid = some r →
      (p.id, r.id) ∈ (linkAllGo rs st pubs).1 := by
  intro pubs
  induction pubs with
  | nil => intro st p hp; cases hp
  | cons p0 rest ih =>
    intro st p hp es hes e he r hr
    show (p.id, r.id) ∈ (linkAllGo rs (linkPub rs st p0) rest).1
    rcases List.mem_cons.mp hp with h1 | h1
    · subst h1
      exact linkAllGo_mem rs rest _ (linkPub_complete rs st p es hes e he r hr)
    · exact ih _ p h1 es hes e he r hr

theorem linkEntry_stable (rs : List Researcher) (p : Pub)
    (st : List (String × String) × Nat) (e : AuthorEntry)
    (h : ∀ r, linkerResolve rs p.organization_id e.name e.orcid = some r →
      (p.id, r.id) ∈ st.1) :
    linkEntry rs p st e = st := by
  cases hres : linkerResolve rs p.organization_id e.name e.orcid with
  | none => exact linkEntry_eq_none hres
  | some r => rw [linkEntry_eq_some hres, if_pos (h r hres)]

theorem linkEntries_stable (rs : List Researcher) (p : Pub) :
    ∀ (es : List AuthorEntry) (st : List (String × String) × Nat),
      (∀ e ∈ es, ∀ r, linkerResolve rs p.organization_id e.name e.orcid = some r →
        (p.id, r.id) ∈ st.1) →
      linkEntries rs p st es = st := by
  intro es
  induction es with
  | nil => intro st _; rfl
  | cons e0 rest ih =>
    intro st h
    show linkEntries rs p (linkEntry rs p st e0) rest = st
    rw [linkEntry_stable rs p st e0 (h e0 (List.mem_cons_self _ _))]
    exact ih st (fun e he => h e (List.mem_cons_of_mem _ he))

theorem linkPub_stable (rs : List Researcher) (st : List (String × String) × Nat) (p : Pub)
    (h : ∀ (es : List AuthorEntry), p.authors = some es → ∀ e ∈ es,
      ∀ r, linkerResolve rs p.organization_id e.name e.orcid = some r →
      (p.id, r.id) ∈ st.1) :
    linkPub rs st p = st := by
  unfold linkPub
  cases hA : p.authors with
  | none => rfl
  | some es => exact linkEntries_stable rs p es st (h es hA)

theorem linkAllGo_stable (rs : List Researcher) :
    ∀ (pubs : List Pub) (st : List (String × String) × Nat),
      (∀ p ∈ pubs, ∀ (es : List AuthorEntry), p.authors = some es → ∀ e ∈ es,
        ∀ r, linkerResolve rs p.organization_id e.name e.orcid = some r →
        (p.id, r.id) ∈ st.1) →
      linkAllGo rs st pubs = st := by
  intro pubs
  induction pubs with
  | nil => intro st _; rfl
  | cons p0 rest ih =>
    intro st h
    show linkAllGo rs (linkPub rs st p0) rest = st
    rw [linkPub_stable rs st p0 (h p0 (List.mem_cons_self _ _))]
    exact ih st (fun p hp => h p (List.mem_cons_of_mem _ hp))

/-- Claim C2 (amended): running the full enrichment pipeline a second time
on an unchanged publication set leaves the store exactly as the first run
left it — zero additional researcher profiles (the second run's created
counter is 0 and the researcher table is unchanged row for row) and zero
additional publication-authorship links (the second run's linked counter is
0 and the link table is unchanged).  The frozen claim's further assertion
that every resolved profile id of the second run equals that of the first
is false (see the counterexample): a later-created identifier-bearing
profile can capture, through the identifier lookup, a mention that the
first run resolved by name. -/
theorem C2_amended (thr : Nat) (st : DBState) (pubs : List Pub) :
    (runEnrich thr (runEnrich thr st pubs).state pubs).state = (runEnrich thr st pubs).state ∧
    (runEnrich thr (runEnrich thr st pubs).state pubs).created = 0 ∧
    (runEnrich thr (runEnrich thr st pubs).state pubs).linked = 0 := by
  obtain ⟨hrs, hcr⟩ := upsertAll_idem st.researchers (mergedOf thr pubs)
  simp only [runEnrich]
  rw [hrs, hcr]
  have hstab : linkAllGo (upsertAll st.researchers (mergedOf thr pubs)).1
      ((linkAllGo (upsertAll st.researchers (mergedOf thr pubs)).1
        (st.links, 0) pubs).1, 0) pubs =
      ((linkAllGo (upsertAll st.researchers (mergedOf thr pubs)).1
        (st.links, 0) pubs).1, 0) := by
    apply linkAllGo_stable
    intro p hp es hes e he r hr
    exact linkAllGo_complete _ pubs (st.links, 0) p hp es hes e he r hr
  have hlk : linkAll (upsertAll st.researchers (mergedOf thr pubs)).1 pubs
      (linkAll (upsertAll st.researchers (mergedOf thr pubs)).1 pubs st.links).1 =
      ((linkAll (upsertAll st.researchers (mergedOf thr pubs)).1 pubs st.links).1, 0) := by
    unfold linkAll
    exact hstab
  rw [hlk]
  exact ⟨rfl, rfl, rfl⟩

/-! ## Score bounds (C1) -/

theorem ccl_le : ∀ (cap : Nat) (xs ys : List Char), ccl cap xs ys ≤ cap := by
  intro cap
  induction cap with
  | zero => intro xs ys; simp [ccl]
  | succ c ih =>
    intro xs ys
    cases xs with
    | nil => simp [ccl]
    | cons x xt =>
      cases ys with
      | nil => simp [ccl]
      | cons y yt =>
        simp only [ccl]
        by_cases h : (x == y) = true
        · rw [if_pos h]
          exact Nat.succ_le_succ (ih xt yt)
        · rw [if_neg h]
          exact Nat.zero_le _

theorem foldlInv {α β : Type} (P : β → Prop) (f : β → α → β) :
    ∀ (l : List α) (s : β), P s → (∀ s' a, a ∈ l → P s' → P (f s' a)) → P (l.foldl f s) := by
  intro l
  induction l with
  | nil => intro s h _; simpa using h
  | cons a t ih =>
    intro s h hstep
    rw [List.foldl_cons]
    exact ih _ (hstep s a (List.mem_cons_self _ _) h)
      (fun s' b hb => hstep s' b (List.mem_cons_of_mem _ hb))

theorem flm_bounds (a b : List Char) (alo ahi blo bhi : Nat) :
    ((flm a b alo ahi blo bhi).2.2 = 0) ∨
    (alo ≤ (flm a b alo ahi blo bhi).1 ∧
      (flm a b alo ahi blo bhi).1 + (flm a b alo ahi blo bhi).2.2 ≤ ahi ∧
      blo ≤ (flm a b alo ahi blo bhi).2.1 ∧
      (flm a b alo ahi blo bhi).2.1 + (flm a b alo ahi blo bhi).2.2 ≤ bhi) := by
  unfold flm
  refine foldlInv
    (fun st : Nat × Nat × Nat => st.2.2 = 0 ∨
      (alo ≤ st.1 ∧ st.1 + st.2.2 ≤ ahi ∧ blo ≤ st.2.1 ∧ st.2.1 + st.2.2 ≤ bhi))
    _ _ _ (Or.inl rfl) ?_
  intro s di hdi hs
  refine foldlInv
    (fun st : Nat × Nat × Nat => st.2.2 = 0 ∨
      (alo ≤ st.1 ∧ st.1 + st.2.2 ≤ ahi ∧ blo ≤ st.2.1 ∧ st.2.1 + st.2.2 ≤ bhi))
    _ _ _ hs ?_
  intro s' dj hdj hs'
  have hdi' : di < ahi - alo := List.mem_range.mp hdi
  have hdj' : dj < bhi - blo := List.mem_range.mp hdj
  by_cases hlt : s'.2.2 <
      ccl (min (ahi - (alo + di)) (bhi - (blo + dj))) (a.drop (alo + di)) (b.drop (blo + dj))
  · simp only [if_pos hlt]
    right
    have hk := ccl_le (min (ahi - (alo + di)) (bhi - (blo + dj)))
      (a.drop (alo + di)) (b.drop (blo + dj))
    have hk1 : ccl (min (ahi - (alo + di)) (bhi - (blo + dj))) (a.drop (alo + di))
        (b.drop (blo + dj)) ≤ ahi - (alo + di) :=
      le_trans hk (min_le_left _ _)
    have hk2 : ccl (min (ahi - (alo + di)) (bhi - (blo + dj))) (a.drop (alo + di))
        (b.drop (blo + dj)) ≤ bhi - (blo + dj) :=
      le_trans hk (min_le_right _ _)
    refine ⟨by omega, by omega, by omega, by omega⟩
  · simp only [if_neg hlt]
    exact hs'

theorem blocksGo_total_a (a b : List Char) :
    ∀ (fuel : Nat) (queue : List (Nat × Nat × Nat × Nat)),
      blocksTotal (blocksGo a b fuel queue) ≤
        (queue.map (fun iv => iv.2.1 - iv.1)).sum := by
  intro fuel
  induction fuel with
  | zero => intro queue; simp [blocksGo, blocksTotal]
  | succ f ih =>
    intro queue
    cases queue with
    | nil => simp [blocksGo, blocksTotal]
    | cons iv rest =>
      obtain ⟨alo, ahi, blo, bhi⟩ := iv
      simp only [blocksGo]
      by_cases hz : ((flm a b alo ahi blo bhi).2.2 == 0) = true
      · rw [if_pos hz]
        have := ih rest
        simp only [List.map_cons, List.sum_cons]
        omega
      · rw [if_neg hz]
        have hk : (flm a b alo ahi blo bhi).2.2 ≠ 0 := by simpa using hz
        rcases flm_bounds a b alo ahi blo bhi with h0 | ⟨h1, h2, h3, h4⟩
        · exact absurd h0 hk
        have hrec := ih ((alo, (flm a b alo ahi blo bhi).1, blo,
            (flm a b alo ahi blo bhi).2.1) ::
          ((flm a b alo ahi blo bhi).1 + (flm a b alo ahi blo bhi).2.2, ahi,
            (flm a b alo ahi blo bhi).2.1 + (flm a b alo ahi blo bhi).2.2, bhi) :: rest)
        simp only [blocksTotal, List.map_cons, List.sum_cons] at hrec ⊢
        omega

theorem blocksGo_total_b (a b : List Char) :
    ∀ (fuel : Nat) (queue : List (Nat × Nat × Nat × Nat)),
      blocksTotal (blocksGo a b fuel queue) ≤
        (queue.map (fun iv => iv.2.2.2 - iv.2.2.1)).sum := by
  intro fuel
  induction fuel with
  | zero => intro queue; simp [blocksGo, blocksTotal]
  | succ f ih =>
    intro queue
    cases queue with
    | nil => simp [blocksGo, blocksTotal]
    | cons iv rest =>
      obtain ⟨alo, ahi, blo, bhi⟩ := iv
      simp only [blocksGo]
      by_cases hz : ((flm a b alo ahi blo bhi).2.2 == 0) = true
      · rw [if_pos hz]
        have := ih rest
        simp only [List.map_cons, List.sum_cons]
        omega
      · rw [if_neg hz]
        have hk : (flm a b alo ahi blo bhi).2.2 ≠ 0 := by simpa using hz
        rcases flm_bounds a b alo ahi blo bhi with h0 | ⟨h1, h2, h3, h4⟩
        · exact absurd h0 hk
        have hrec := ih ((alo, (flm a b alo ahi blo bhi).1, blo,
            (flm a b alo ahi blo bhi).2.1) ::
          ((flm a b alo ahi blo bhi).1 + (flm a b alo ahi blo bhi).2.2, ahi,
            (flm a b alo ahi blo bhi).2.1 + (flm a b alo ahi blo bhi).2.2, bhi) :: rest)
        simp only [blocksTotal, List.map_cons, List.sum_cons] at hrec ⊢
        omega

theorem blocksTotal_le_left (a b : List Char) :
    blocksTotal (matchingBlocks a b) ≤ a.length := by
  have := blocksGo_total_a a b (2 * (a.length + b.length) + 3) [(0, a.length, 0, b.length)]
  simpa using this

theorem blocksTotal_le_right (a b : List Char) :
    blocksTotal (matchingBlocks a b) ≤ b.length := by
  have := blocksGo_total_b a b (2 * (a.length + b.length) + 3) [(0, a.length, 0, b.length)]
  simpa using this

theorem roundHalfEven_le_100 {n d : Nat} (hd : d ≠ 0) (h : n ≤ 100 * d) :
    roundHalfEven n d ≤ 100 := by
  have hq : n / d ≤ 100 := by
    calc n / d ≤ (100 * d) / d := Nat.div_le_div_right h
    _ = 100 := Nat.mul_div_cancel _ (Nat.pos_of_ne_zero hd)
  by_cases h100 : n / d = 100
  · have hge : 100 * d ≤ n := by
      have := Nat.div_mul_le_self n d
      rw [h100] at this
      exact this
    have heq : n = 100 * d := Nat.le_antisymm h hge
    have hr : n % d = 0 := by rw [heq]; exact Nat.mul_mod_left 100 d
    simp only [roundHalfEven, hr, h100]
    have : 2 * 0 < d := by omega
    rw [if_pos this]
  · have hq99 : n / d ≤ 99 := by omega
    simp only [roundHalfEven]
    split
    · omega
    · split
      · omega
      · split
        · omega
        · omega

theorem ratioData_le_100 (a b : List Char) : ratioData a b ≤ 100 := by
  unfold ratioData
  by_cases ht : ((a.length + b.length) == 0) = true
  · simp only [if_pos ht]
    exact Nat.le_refl 100
  · simp only [if_neg ht]
    have hd : a.length + b.length ≠ 0 := by simpa using ht
    apply roundHalfEven_le_100 hd
    have h1 := blocksTotal_le_left a b
    have h2 := blocksTotal_le_right a b
    omega

theorem alignCand_le_100 (shorter longer : List Char) (bij : Nat × Nat × Nat) :
    alignCand shorter longer bij ≤ 100 := by
  simp only [alignCand]
  split
  · exact Nat.le_refl 100
  · split
    · exact Nat.le_refl 100
    · next ht _ =>
      have hd : shorter.length + ((longer.drop (bij.2.1 - bij.1)).take shorter.length).length
          ≠ 0 := by simpa using ht
      apply roundHalfEven_le_100 hd
      have h1 := blocksTotal_le_left shorter ((longer.drop (bij.2.1 - bij.1)).take shorter.length)
      have h2 := blocksTotal_le_right shorter ((longer.drop (bij.2.1 - bij.1)).take shorter.length)
      omega

theorem foldl_max_le_100 : ∀ (l : List Nat) (acc : Nat), acc ≤ 100 →
    (∀ x ∈ l, x ≤ 100) → l.foldl max acc ≤ 100 := by
  intro l
  induction l with
  | nil => intro acc h _; simpa using h
  | cons a t ih =>
    intro acc hacc hall
    rw [List.foldl_cons]
    refine ih _ ?_ (fun x hx => hall x (List.mem_cons_of_mem _ hx))
    exact Nat.max_le.mpr ⟨hacc, hall a (List.mem_cons_self _ _)⟩

theorem bestAlignData_le_100 (s1 s2 : List Char) : bestAlignData s1 s2 ≤ 100 := by
  unfold bestAlignData
  apply foldl_max_le_100 _ 0 (by omega)
  intro x hx
  obtain ⟨bij, _, rfl⟩ := List.mem_map.mp hx
  exact alignCand_le_100 _ _ bij

theorem tokenSetAlignScore_le_100 (s1 s2 : String) : tokenSetAlignScore s1 s2 ≤ 100 := by
  simp only [tokenSetAlignScore]
  split
  · exact Nat.zero_le 100
  · split
    · exact Nat.zero_le 100
    · exact Nat.max_le.mpr ⟨bestAlignData_le_100 _ _,
        Nat.max_le.mpr ⟨bestAlignData_le_100 _ _, bestAlignData_le_100 _ _⟩⟩

theorem tokenSortScore_le_100 (s1 s2 : String) : tokenSortScore s1 s2 ≤ 100 :=
  ratioData_le_100 _ _

/-- Claim C1 (amended): the matcher the disambiguation pipeline actually
uses computes a single score — `fuzz.token_sort_ratio` of the lower-cased,
stripped names — an integer in [0,100]; the max-of-two-scores matcher (the
token-order-insensitive ratio and the partial token-set ratio, both also in
[0,100]) is the one used by the researcher name-search endpoint, not by the
disambiguation pipeline (see the counterexample). -/
theorem C1_amended (a b : String) :
    dedupScore a b = tokenSortScore (pyStrip (pyLower a)) (pyStrip (pyLower b)) ∧
    dedupScore a b ≤ 100 ∧
    searchScore a b = max (tokenSortScore (pyLower a) (pyLower b))
      (tokenSetAlignScore (pyLower a) (pyLower b)) ∧
    searchScore a b ≤ 100 :=
  ⟨rfl, tokenSortScore_le_100 _ _, rfl,
    Nat.max_le.mpr ⟨tokenSortScore_le_100 _ _, tokenSetAlignScore_le_100 _ _⟩⟩

end Enricher
